import Mathlib

/-!
# helm-repro: the cancellable runner `StopWithSigInt` and the `main` flow

Shallow embedding of `src/main.go`.

The Go program has two threads of control per call of `StopWithSigInt`: the
caller, which runs lines 39-46 and 59, and the goroutine of lines 48-57.  Both
are embedded as program counters in one state, and an interleaving is a list of
`Event`s, each of which lets one of them (or the environment: a delivered
SIGINT, a cancellation of the parent context, a line on standard input) take
one atomic step.  An event whose thread is blocked or finished leaves the state
unchanged, so every list of events is a schedule.

What is not repository code is either a parameter or a small model of the Go
runtime:

* the operation `f` is an `Operation`: a resumable computation which, each time
  it is scheduled, sees whether the context it was handed is cancelled and
  either continues or returns `nil` / an error;
* `context.WithCancel`: the child starts with the parent's error when the
  parent is already cancelled; a later cancellation of the parent reaches the
  child in a step of its own, `Event.propagate` (the parent's loop over its
  children, or the goroutine that `WithCancel` starts for a parent that is not
  one of package `context`'s own types); `cancel()` sets `context.Canceled` on
  the child only; the first error wins;
* `signal.Notify` on a channel of capacity 1: a SIGINT is sent without
  blocking, it is dropped when the buffer is full, and it is not sent to this
  channel before `Notify` or after `Stop`;
* the Helm calls of `installChart` are the fields of `Helm`.
-/

namespace HelmRepro

/-- What an operation does when it is scheduled: go on in a new internal
state, or return (`none` is Go's `nil` error). -/
inductive OpStep (σ ε : Type) where
  | more (s : σ)
  | done (err : Option ε)
  deriving DecidableEq, Repr

/-- A value of Go type `func(context.Context) error`, made resumable: `step`
receives the operation's internal state and whether its context is cancelled
at that moment (`ctx.Err() != nil`). -/
structure Operation (σ ε : Type) where
  start : σ
  step : σ → Bool → OpStep σ ε

/-- The two threads of one call of `StopWithSigInt`. -/
inductive Tid where
  | caller
  | background
  deriving DecidableEq, Repr

/-- Observable actions, in the order in which they happen. -/
inductive Act (ε : Type) where
  /-- Line 41, `signal.Notify(c, os.Interrupt)`. -/
  | subscribe
  /-- Line 48, the `go` statement. -/
  | spawn
  /-- Line 59, `f(thisCtx)` is entered; the flag is `thisCtx.Err() != nil`. -/
  | fCall (cancelled : Bool)
  /-- Line 59, `f` has returned. -/
  | fDone (err : Option ε)
  /-- Line 44, `signal.Stop(c)`. -/
  | stop
  /-- Lines 45 and 52, `cancel()`. -/
  | cancel (t : Tid)
  /-- Line 50, a value is received from `c`. -/
  | recv
  /-- A write to standard output (lines 32, 51, 55, 100). -/
  | write (t : Tid) (text : String)
  /-- Line 59/60, control is back in the caller of `StopWithSigInt`. -/
  | ret (err : Option ε)
  deriving DecidableEq, Repr

/-- Program counter of the caller's thread inside `StopWithSigInt`. -/
inductive Pc (σ ε : Type) where
  /-- Before line 39. -/
  | withCancel
  /-- Before line 40. -/
  | makeChan
  /-- Before line 41. -/
  | notify
  /-- Before line 43. -/
  | deferReg
  /-- Before line 48. -/
  | spawn
  /-- Before line 59. -/
  | call
  /-- Inside `f`, whose internal state is `s`. -/
  | inF (s : σ)
  /-- In the deferred function, before line 44. -/
  | deferStop (r : Option ε)
  /-- In the deferred function, before line 45. -/
  | deferCancel (r : Option ε)
  /-- After the call. -/
  | returned (r : Option ε)
  deriving DecidableEq, Repr

/-- Program counter of the goroutine of lines 48-57. -/
inductive GoPc where
  /-- The `go` statement has not been executed. -/
  | notStarted
  /-- Blocked in, or about to enter, the `select` of line 49. -/
  | select
  /-- Before line 51. -/
  | printReq
  /-- Before line 52. -/
  | cancelReq
  /-- Before lines 54-55. -/
  | printErr
  /-- The function literal has returned. -/
  | finished
  /-- A nil `err` was dereferenced on line 55. -/
  | crashed
  deriving DecidableEq, Repr

/-- State of one call of `StopWithSigInt`. -/
structure State (σ ε : Type) where
  pc : Pc σ ε
  gpc : GoPc
  /-- The value of `ctx.Err()`, as the text of its `Error()`. -/
  parentErr : Option String
  /-- Whether `thisCtx` exists. -/
  derived : Bool
  /-- The value of `thisCtx.Err()`. -/
  thisErr : Option String
  /-- Whether `c` is registered for SIGINT. -/
  subscribed : Bool
  /-- Number of signals in the buffer of `c`. -/
  buf : Nat
  log : List (Act ε)
  deriving DecidableEq, Repr

/-- One step of the scheduler or of the environment. -/
inductive Event where
  /-- The caller's thread executes its next statement. -/
  | caller
  /-- The goroutine executes its next statement; when both cases of its
  `select` are ready, `preferSig` tells which one the runtime picks. -/
  | background (preferSig : Bool)
  /-- The Go runtime dispatches a SIGINT. -/
  | interrupt
  /-- The parent context is cancelled with the given error text. -/
  | parentCancel (err : String)
  /-- Package `context` carries the parent's cancellation over to `thisCtx`. -/
  | propagate
  /-- A line arrives on standard input. -/
  | enter
  deriving DecidableEq, Repr

/-- Capacity of the channel made on line 40. -/
def chanCap : Nat := 1

/-- State on entry to `StopWithSigInt(f, ctx)`, where `ctx.Err()` is `parentErr`. -/
def State.entry {σ ε : Type} (parentErr : Option String) : State σ ε :=
  { pc := .withCancel, gpc := .notStarted, parentErr := parentErr, derived := false,
    thisErr := none, subscribed := false, buf := 0, log := [] }

/-- The function `cancel` returned by `context.WithCancel` on line 39. -/
def cancelThis {σ ε : Type} (s : State σ ε) : State σ ε :=
  match s.thisErr with
  | some _ => s
  | none => { s with thisErr := some "context canceled" }

/-- The caller's next statement (lines 39-46 and 59). -/
def callerStep {σ ε : Type} (f : Operation σ ε) (s : State σ ε) : State σ ε :=
  match s.pc with
  | .withCancel => { s with pc := .makeChan, derived := true, thisErr := s.parentErr }
  | .makeChan => { s with pc := .notify, buf := 0 }
  | .notify => { s with pc := .deferReg, subscribed := true, log := s.log ++ [.subscribe] }
  | .deferReg => { s with pc := .spawn }
  | .spawn => { s with pc := .call, gpc := .select, log := s.log ++ [.spawn] }
  | .call => { s with pc := .inF f.start, log := s.log ++ [.fCall s.thisErr.isSome] }
  | .inF st =>
    match f.step st s.thisErr.isSome with
    | .more st' => { s with pc := .inF st' }
    | .done r => { s with pc := .deferStop r, log := s.log ++ [.fDone r] }
  | .deferStop r => { s with pc := .deferCancel r, subscribed := false, log := s.log ++ [.stop] }
  | .deferCancel r =>
    { cancelThis s with pc := .returned r, log := s.log ++ [.cancel .caller, .ret r] }
  | .returned _ => s

/-- The goroutine's next statement (lines 49-56). -/
def backgroundStep {σ ε : Type} (preferSig : Bool) (s : State σ ε) : State σ ε :=
  match s.gpc with
  | .notStarted => s
  | .select =>
    if 0 < s.buf ∧ (preferSig = true ∨ s.parentErr = none) then
      { s with gpc := .printReq, buf := s.buf - 1, log := s.log ++ [.recv] }
    else if s.parentErr ≠ none then
      { s with gpc := .printErr }
    else s
  | .printReq =>
    { s with gpc := .cancelReq,
             log := s.log ++ [.write .background "Cancellation requested\n"] }
  | .cancelReq => { cancelThis s with gpc := .finished, log := s.log ++ [.cancel .background] }
  | .printErr =>
    match s.parentErr with
    | some e =>
      { s with gpc := .finished,
               log := s.log ++ [.write .background ("context error: " ++ e ++ "\n")] }
    | none => { s with gpc := .crashed }
  | .finished => s
  | .crashed => s

/-- Dispatch of a SIGINT to `c`: a non-blocking send, only while `c` is
registered. -/
def interruptStep {σ ε : Type} (s : State σ ε) : State σ ε :=
  if s.subscribed = true ∧ s.buf < chanCap then { s with buf := s.buf + 1 } else s

/-- Cancellation of the parent context: its `Done()` is closed and its
`Err()` is set; `thisCtx` is not touched in this step. -/
def parentCancelStep {σ ε : Type} (e : String) (s : State σ ε) : State σ ε :=
  match s.parentErr with
  | some _ => s
  | none => { s with parentErr := some e }

/-- Propagation of the parent's cancellation to `thisCtx` by package
`context`: once `thisCtx` exists and the parent is cancelled, a live `thisCtx`
is cancelled with the parent's error. -/
def propagateStep {σ ε : Type} (s : State σ ε) : State σ ε :=
  match s.parentErr with
  | some e => if s.derived = true ∧ s.thisErr = none then { s with thisErr := some e } else s
  | none => s

/-- One event of a schedule. -/
def step {σ ε : Type} (f : Operation σ ε) (s : State σ ε) : Event → State σ ε
  | .caller => callerStep f s
  | .background p => backgroundStep p s
  | .interrupt => interruptStep s
  | .parentCancel e => parentCancelStep e s
  | .propagate => propagateStep s
  | .enter => s

/-- The state reached from `s` under the schedule `sched`. -/
def runFrom {σ ε : Type} (f : Operation σ ε) (s : State σ ε) (sched : List Event) :
    State σ ε :=
  sched.foldl (step f) s

/-- `StopWithSigInt(f, ctx)` under the schedule `sched`; `parentErr` is
`ctx.Err()` at entry. -/
def StopWithSigInt {σ ε : Type} (f : Operation σ ε) (parentErr : Option String)
    (sched : List Event) : State σ ε :=
  runFrom f (State.entry parentErr) sched

/-- The value returned by the call, once it has returned. -/
def State.result {σ ε : Type} (s : State σ ε) : Option (Option ε) :=
  match s.pc with
  | .returned r => some r
  | _ => none

/-- The internal state of `f` after it was shown the flags `obs`, one at each
step, and went on every time; `none` if it returned on the way. -/
def Operation.after {σ ε : Type} (f : Operation σ ε) : σ → List Bool → Option σ
  | s, [] => some s
  | s, b :: bs =>
    match f.step s b with
    | .more s' => Operation.after f s' bs
    | .done _ => none

/-- The value `f` returns when it is run on its own from state `s` and shown
the flags `obs`, one at each step, if it returns exactly at the last of
them. -/
def Operation.run {σ ε : Type} (f : Operation σ ε) : σ → List Bool → Option (Option ε)
  | _, [] => none
  | s, b :: bs =>
    match f.step s b with
    | .more s' => Operation.run f s' bs
    | .done r => if bs = [] then some r else none

/-- Where the caller stands after `n` of its steps, up to the call of `f`. -/
def entryPc {σ ε : Type} (f : Operation σ ε) : Nat → Pc σ ε
  | 0 => .withCancel
  | 1 => .makeChan
  | 2 => .notify
  | 3 => .deferReg
  | 4 => .spawn
  | 5 => .call
  | _ => .inF f.start

/-- An operation that returns at once: `nil` when its context is live, the
error `"stopped"` when it is cancelled. -/
def probe : Operation Unit String :=
  { start := (), step := fun _ c => .done (if c then some "stopped" else none) }

/-- An operation that works for two steps and fails at the third with
`"install failed"`, unless it finds its context cancelled, when it returns
`"stopped"`. -/
def flaky : Operation Nat String :=
  { start := 0
    step := fun n c =>
      if c then .done (some "stopped")
      else if n < 2 then .more (n + 1) else .done (some "install failed") }

/-- Whether an action is performed by the caller's thread. -/
def Act.byCaller {ε : Type} : Act ε → Bool
  | .cancel t => decide (t = .caller)
  | .write t _ => decide (t = .caller)
  | .recv => false
  | _ => true

/-- The caller's actions of a log, in order. -/
def callerActs {ε : Type} (l : List (Act ε)) : List (Act ε) :=
  l.filter Act.byCaller

/-- The goroutine's actions of a log, in order. -/
def backgroundActs {ε : Type} (l : List (Act ε)) : List (Act ε) :=
  l.filter (fun a => !a.byCaller)

/-- The values `f` returned, in order. -/
def fReturns {ε : Type} (l : List (Act ε)) : List (Option ε) :=
  l.filterMap (fun a => match a with | .fDone r => some r | _ => none)

/-- The values `StopWithSigInt` returned, in order. -/
def returns {ε : Type} (l : List (Act ε)) : List (Option ε) :=
  l.filterMap (fun a => match a with | .ret r => some r | _ => none)

/-- The texts written to standard output by thread `t`, in order. -/
def written {ε : Type} (t : Tid) (l : List (Act ε)) : List String :=
  l.filterMap (fun a => match a with
    | .write u text => if u = t then some text else none
    | _ => none)

/-- What the caller's thread has done when it stands at `pc`; `b` is the flag
of the `fCall` action. -/
def callerTrace {σ ε : Type} : Pc σ ε → Bool → List (Act ε)
  | .withCancel, _ => []
  | .makeChan, _ => []
  | .notify, _ => []
  | .deferReg, _ => [.subscribe]
  | .spawn, _ => [.subscribe]
  | .call, _ => [.subscribe, .spawn]
  | .inF _, b => [.subscribe, .spawn, .fCall b]
  | .deferStop r, b => [.subscribe, .spawn, .fCall b, .fDone r]
  | .deferCancel r, b => [.subscribe, .spawn, .fCall b, .fDone r, .stop]
  | .returned r, b =>
    [.subscribe, .spawn, .fCall b, .fDone r, .stop, .cancel .caller, .ret r]

/-- The goroutine's actions on the interrupt branch (lines 50-52). -/
def sigBranch {ε : Type} : List (Act ε) :=
  [.recv, .write .background "Cancellation requested\n", .cancel .background]

/-- The goroutine's actions on the parent branch (lines 53-55) when
`ctx.Err().Error()` is `e`. -/
def doneBranch {ε : Type} (e : String) : List (Act ε) :=
  [.write .background ("context error: " ++ e ++ "\n")]

/-- Number of steps of the caller's thread in a schedule. -/
def callerSteps (sched : List Event) : Nat :=
  sched.count .caller

/-- Number of steps of the goroutine in a schedule. -/
def backgroundSteps (sched : List Event) : Nat :=
  sched.countP (fun e => match e with | .background _ => true | _ => false)

/-- A schedule in which no SIGINT is dispatched. -/
def noInterrupt (sched : List Event) : Prop :=
  Event.interrupt ∉ sched

/-- Whether an event is a cancellation of the parent context. -/
def Event.isParentCancel : Event → Bool
  | .parentCancel _ => true
  | _ => false

/-- A schedule in which the parent context is not cancelled. -/
def noParentCancel (sched : List Event) : Prop :=
  ∀ ev ∈ sched, ev.isParentCancel = false

instance (sched : List Event) : Decidable (noInterrupt sched) := by
  unfold noInterrupt
  infer_instance

instance (sched : List Event) : Decidable (noParentCancel sched) := by
  unfold noParentCancel
  infer_instance

/-- A schedule that brings the caller into `f` and lets `f` take two steps,
with nothing else happening. -/
def failingRun : List Event :=
  List.replicate 8 .caller

/-- A schedule in which an interrupt is dispatched and handled by the
goroutine while `f` is running. -/
def interruptedRun : List Event :=
  List.replicate 7 .caller ++
    [.interrupt, .background true, .background true, .background true] ++
    List.replicate 4 .caller

/-- Whether the caller has not yet executed the `go` statement. -/
def Pc.beforeGo {σ ε : Type} : Pc σ ε → Bool
  | .withCancel => true
  | .makeChan => true
  | .notify => true
  | .deferReg => true
  | .spawn => true
  | _ => false

/-- Whether the caller stands between `signal.Notify` and `signal.Stop`. -/
def Pc.betweenNotifyAndStop {σ ε : Type} : Pc σ ε → Bool
  | .deferReg => true
  | .spawn => true
  | .call => true
  | .inF _ => true
  | .deferStop _ => true
  | _ => false

/-- What the goroutine has done when it stands at `gpc`. -/
def GoPc.trace {ε : Type} (parentErr thisErr : Option String) (l : List (Act ε)) :
    GoPc → Prop
  | .notStarted => l = []
  | .select => l = []
  | .printReq => l = sigBranch.take 1
  | .cancelReq => l = sigBranch.take 2
  | .printErr => l = []
  | .finished => (l = sigBranch ∧ thisErr ≠ none) ∨ ∃ e, parentErr = some e ∧ l = doneBranch e
  | .crashed => False

/-- Facts that hold in every state of a call entered with `ctx.Err() = p0`. -/
structure Inv {σ ε : Type} (p0 : Option String) (s : State σ ε) : Prop where
  child : p0 ≠ none → s.derived = true → s.thisErr ≠ none
  derived : s.derived = true ↔ s.pc ≠ .withCancel
  subscribed : s.subscribed = s.pc.betweenNotifyAndStop
  buf : s.buf ≤ chanCap
  started : s.gpc = .notStarted ↔ s.pc.beforeGo = true
  returned : ∀ r, s.pc = .returned r → s.thisErr ≠ none
  printErr : s.gpc = .printErr → s.parentErr ≠ none
  parent : p0 ≠ none → s.parentErr ≠ none
  background : GoPc.trace s.parentErr s.thisErr (backgroundActs s.log) s.gpc

/-- The values `f` has returned when the caller stands at `pc`. -/
def Pc.fResult {σ ε : Type} : Pc σ ε → List (Option ε)
  | .deferStop r => [r]
  | .deferCancel r => [r]
  | .returned r => [r]
  | _ => []

/-- The values `StopWithSigInt` has returned when the caller stands at `pc`. -/
def Pc.retResult {σ ε : Type} : Pc σ ε → List (Option ε)
  | .returned r => [r]
  | _ => []

/-- Number of calls of `signal.Stop` in a log. -/
def stops {ε : Type} (l : List (Act ε)) : Nat :=
  l.countP (fun a => match a with | .stop => true | _ => false)

/-- Number of statements the caller still has to execute once `f` has
returned. -/
def Pc.toGo {σ ε : Type} : Pc σ ε → Nat
  | .deferStop _ => 2
  | .deferCancel _ => 1
  | _ => 0
/-- The caller's part of the log is what its program counter says, and a
context cancelled at entry makes the flag of the `fCall` action true. -/
def CallerInv {σ ε : Type} (p0 : Option String) (s : State σ ε) : Prop :=
  ∃ b, callerActs s.log = callerTrace s.pc b ∧ (p0 ≠ none → b = true)
/-- Nothing has woken the goroutine: the buffer of `c` is empty, the parent is
live, and the goroutine is not started or blocked in its `select`. -/
def Quiet {σ ε : Type} (s : State σ ε) : Prop :=
  s.buf = 0 ∧ s.parentErr = none ∧ (s.gpc = .notStarted ∨ s.gpc = .select)

/-- A SIGINT dispatched to `c` is in its buffer for as long as the goroutine
has not passed its `select`. -/
def Pending {σ ε : Type} (s : State σ ε) : Prop :=
  s.pc ≠ .withCancel ∧ s.pc ≠ .makeChan ∧
    (s.gpc = .notStarted ∨ s.gpc = .select → s.buf = 1)

/-- Number of statements the goroutine still has to execute once it is
started and one case of its `select` is ready. -/
def GoPc.toGo : GoPc → Nat
  | .notStarted => 3
  | .select => 3
  | .printReq => 2
  | .cancelReq => 1
  | .printErr => 1
  | .finished => 0
  | .crashed => 0

/-- The flags `obs` bring `f`, run on its own from its start, to where the
caller's program counter says it is: into the state held at `inF`, or to the
value held after the return. -/
def Seen {σ ε : Type} (f : Operation σ ε) (obs : List Bool) : Pc σ ε → Prop
  | .inF st => f.after f.start obs = some st
  | .deferStop r => f.run f.start obs = some r
  | .deferCancel r => f.run f.start obs = some r
  | .returned r => f.run f.start obs = some r
  | _ => obs = []

/-- There are flags that account for where `f` is, all `true` when the parent
was cancelled at entry, and all `false` while `thisCtx` is live. -/
def SeenInv {σ ε : Type} (f : Operation σ ε) (p0 : Option String) (s : State σ ε) : Prop :=
  ∃ obs, Seen f obs s.pc ∧ (p0 ≠ none → ∀ b ∈ obs, b = true) ∧
    (s.thisErr = none → ∀ b ∈ obs, b = false)
/-- The fields of `action.Install` that `installChart` sets (lines 87-91);
`Timeout` is a `time.Duration`, in nanoseconds. -/
structure Install where
  Namespace : String
  ReleaseName : String
  CreateNamespace : Bool
  Wait : Bool
  Timeout : Nat
  deriving DecidableEq, Repr

/-- The Helm library as `installChart` uses it; each call yields its error, if
any. -/
structure Helm (σ ε : Type) where
  /-- Line 63, `loader.Load(path)`. -/
  Load : String → Option ε
  /-- Line 73, `actionConfig.Init` for a namespace, a release name and the value
  of `HELM_DRIVER`. -/
  Init : String → String → String → Option ε
  /-- Line 93, `client.RunWithContext(ctx, chart, vals)`. -/
  RunWithContext : Install → Operation σ ε

/-- Where `installChart` stands. -/
inductive InstallPc (σ : Type) where
  /-- Before line 63. -/
  | load
  /-- Before line 73. -/
  | init
  /-- Inside `client.RunWithContext`, whose internal state is `s`. -/
  | run (s : σ)
  deriving DecidableEq, Repr

/-- Go's `time.Minute`, in nanoseconds. -/
def minute : Nat := 60 * 1000000000

/-- The client configured on lines 86-91. -/
def installClient (nspace : String) : Install :=
  { Namespace := nspace, ReleaseName := "repro", CreateNamespace := true, Wait := true,
    Timeout := 30 * minute }

/-- The closure of lines 27-29, `installChart(c, namespace)` (lines 62-96);
`driver` is the value of the environment variable `HELM_DRIVER`. -/
def installChart {σ ε : Type} (helm : Helm σ ε) (driver nspace : String) :
    Operation (InstallPc σ) ε :=
  { start := .load
    step := fun pc cancelled =>
      match pc with
      | .load =>
        match helm.Load "chart" with
        | some err => .done (some err)
        | none => .more .init
      | .init =>
        match helm.Init nspace "repro" driver with
        | some err => .done (some err)
        | none => .more (.run (helm.RunWithContext (installClient nspace)).start)
      | .run s =>
        match (helm.RunWithContext (installClient nspace)).step s cancelled with
        | .more s' => .more (.run s')
        | .done err => .done err }

/-- Program counter of `main`. -/
inductive MainPc where
  /-- Before line 22, flags parsed. -/
  | check
  /-- Before line 26. -/
  | prompt1
  /-- In `waitForInput`, before line 101, first call. -/
  | read1
  /-- In the call of `StopWithSigInt` of line 27, or before line 31. -/
  | install
  /-- Before line 35. -/
  | prompt2
  /-- In `waitForInput`, before line 101, second call. -/
  | read2
  /-- The function `main` has returned: exit status 0. -/
  | exited
  /-- The panic of line 23. -/
  | panicked
  /-- Terminated by a SIGINT that no channel was registered for. -/
  | killed
  deriving DecidableEq, Repr

/-- State of the process. -/
structure MainState (σ ε : Type) where
  mpc : MainPc
  /-- Lines (or an end of file) waiting on standard input. -/
  lines : Nat
  /-- The call of `StopWithSigInt`; its log is the process's log. -/
  run : State σ ε
  deriving DecidableEq, Repr

/-- The prompt of line 26. -/
def startPrompt : String :=
  "Press enter to start installation. Press ctrl+c to cancel installation once begun"

/-- The prompt of line 35. -/
def exitPrompt : String := "Press enter to exit"

/-- What line 32 writes for the error text `e`. -/
def errorLine (e : String) : String := "error during installation: " ++ e ++ "\n"

/-- Whether the process is still running. -/
def MainPc.alive : MainPc → Bool
  | .exited => false
  | .panicked => false
  | .killed => false
  | _ => true

/-- Line 100 of `waitForInput(msg)`: the prompt and a newline are written to
standard output. -/
def waitForInputWrite {σ ε : Type} (msg : String) (s : MainState σ ε) : MainState σ ε :=
  { s with run := { s.run with log := s.run.log ++ [.write .caller (msg ++ "\n")] } }

/-- Line 101 of `waitForInput`: `ReadString` returns once a line (or the end
of the input) is there, and what it read is dropped; `none` while it blocks. -/
def waitForInputRead {σ ε : Type} (s : MainState σ ε) : Option (MainState σ ε) :=
  if 0 < s.lines then some { s with lines := s.lines - 1 } else none

/-- The next statement of `main`'s thread; `Error` is the method `Error()` of
the error type. -/
def mainCallerStep {σ ε : Type} (Error : ε → String) (f : Operation σ ε) (nspace : String)
    (s : MainState σ ε) : MainState σ ε :=
  match s.mpc with
  | .check => if nspace = "" then { s with mpc := .panicked } else { s with mpc := .prompt1 }
  | .prompt1 => { waitForInputWrite startPrompt s with mpc := .read1 }
  | .read1 =>
    match waitForInputRead s with
    | some s' => { s' with mpc := .install }
    | none => s
  | .install =>
    match s.run.pc with
    | .returned (some err) =>
      { s with mpc := .prompt2,
               run := { s.run with log := s.run.log ++ [.write .caller (errorLine (Error err))] } }
    | .returned none => { s with mpc := .prompt2 }
    | _ => { s with run := callerStep f s.run }
  | .prompt2 => { waitForInputWrite exitPrompt s with mpc := .read2 }
  | .read2 =>
    match waitForInputRead s with
    | some s' => { s' with mpc := .exited }
    | none => s
  | .exited => s
  | .panicked => s
  | .killed => s

/-- One event of a schedule of the process.  The parent context of line 29 is
`context.Background()`, which is never cancelled. -/
def mainStep {σ ε : Type} (Error : ε → String) (f : Operation σ ε) (nspace : String)
    (s : MainState σ ε) (e : Event) : MainState σ ε :=
  if s.mpc.alive = true then
    match e with
    | .caller => mainCallerStep Error f nspace s
    | .background p => { s with run := backgroundStep p s.run }
    | .interrupt =>
      if s.run.subscribed = true then { s with run := interruptStep s.run }
      else { s with mpc := .killed }
    | .parentCancel _ => s
    | .propagate => s
    | .enter => { s with lines := s.lines + 1 }
  else s

/-- The state of the process reached from `s` under the schedule `sched`. -/
def mainFrom {σ ε : Type} (Error : ε → String) (f : Operation σ ε) (nspace : String)
    (s : MainState σ ε) (sched : List Event) : MainState σ ε :=
  sched.foldl (mainStep Error f nspace) s

/-- The process at its start, the flags parsed. -/
def MainState.entry {σ ε : Type} : MainState σ ε :=
  { mpc := .check, lines := 0, run := State.entry none }

/-- The program `main` with `--namespace` parsed to `nspace`, under the
schedule `sched`. -/
def main {σ ε : Type} (Error : ε → String) (helm : Helm σ ε) (driver nspace : String)
    (sched : List Event) : MainState (InstallPc σ) ε :=
  mainFrom Error (installChart helm driver nspace) nspace MainState.entry sched

/-- A Helm whose chart fails to load. -/
def brokenChart : Helm Unit String :=
  { Load := fun _ => some "Chart.yaml file is missing"
    Init := fun _ _ _ => none
    RunWithContext := fun _ => probe }

/-- A Helm whose install returns at once, with an error when cancelled. -/
def quickHelm : Helm Unit String :=
  { Load := fun _ => none
    Init := fun _ _ _ => none
    RunWithContext := fun _ => probe }

/-- The line of the install phase's result `r`, if it is an error (lines
31-33). -/
def report {ε : Type} (Error : ε → String) : Option ε → List String
  | some err => [errorLine (Error err)]
  | none => []

/-- What holds of the process where `main` stands: what its thread has
written, and what the install phase returned. -/
def MainInv {σ ε : Type} (Error : ε → String) (nspace : String) (s : MainState σ ε) : Prop :=
  match s.mpc with
  | .check => s.run = State.entry none
  | .prompt1 => nspace ≠ "" ∧ s.run = State.entry none
  | .read1 =>
    nspace ≠ "" ∧
      s.run = { (State.entry none : State σ ε) with
                  log := [.write .caller (startPrompt ++ "\n")] }
  | .install =>
    nspace ≠ "" ∧ written .caller s.run.log = [startPrompt ++ "\n"] ∧
      fReturns s.run.log = s.run.pc.fResult
  | .prompt2 =>
    nspace ≠ "" ∧ ∃ r, s.run.pc = .returned r ∧ fReturns s.run.log = [r] ∧
      written .caller s.run.log = [startPrompt ++ "\n"] ++ report Error r
  | .read2 =>
    nspace ≠ "" ∧ ∃ r, s.run.pc = .returned r ∧ fReturns s.run.log = [r] ∧
      written .caller s.run.log =
        [startPrompt ++ "\n"] ++ report Error r ++ [exitPrompt ++ "\n"]
  | .exited =>
    nspace ≠ "" ∧ ∃ r, s.run.pc = .returned r ∧ fReturns s.run.log = [r] ∧
      written .caller s.run.log =
        [startPrompt ++ "\n"] ++ report Error r ++ [exitPrompt ++ "\n"]
  | .panicked => nspace = "" ∧ s.run = State.entry none
  | .killed => nspace = "" → s.run = State.entry none

/-- Number of statements `main`'s thread has to execute before the first
prompt is written. -/
def MainPc.toPrompt : MainPc → Nat
  | .check => 2
  | .prompt1 => 1
  | _ => 0

/-- A schedule of the whole program: both prompts answered, an interrupt
during the install phase and one after it. -/
def demoSchedule : List Event :=
  [.caller, .caller, .enter, .caller, .caller, .caller, .caller, .caller, .caller,
    .caller, .interrupt, .caller, .caller, .caller, .caller, .caller, .enter, .caller,
    .background true, .interrupt]

/-- Everything `main`'s thread writes in a run that ends normally, when the
install phase returned `r` (lines 26, 32 and 35). -/
def finalOutput {ε : Type} (Error : ε → String) : Option ε → List String
  | some e =>
    [startPrompt ++ "\n", "error during installation: " ++ Error e ++ "\n",
      exitPrompt ++ "\n"]
  | none => [startPrompt ++ "\n", exitPrompt ++ "\n"]
theorem callerActs_append {ε : Type} (l m : List (Act ε)) :
    callerActs (l ++ m) = callerActs l ++ callerActs m := by
  simp [callerActs]

theorem backgroundActs_append {ε : Type} (l m : List (Act ε)) :
    backgroundActs (l ++ m) = backgroundActs l ++ backgroundActs m := by
  simp [backgroundActs]

theorem backgroundActs_nil {ε : Type} : backgroundActs ([] : List (Act ε)) = [] := rfl

theorem backgroundActs_cons {ε : Type} (a : Act ε) (l : List (Act ε)) :
    backgroundActs (a :: l) = if a.byCaller then backgroundActs l else a :: backgroundActs l := by
  cases h : a.byCaller <;> simp [backgroundActs, h]

theorem callerActs_nil {ε : Type} : callerActs ([] : List (Act ε)) = [] := rfl

theorem callerActs_cons {ε : Type} (a : Act ε) (l : List (Act ε)) :
    callerActs (a :: l) = if a.byCaller then a :: callerActs l else callerActs l := by
  cases h : a.byCaller <;> simp [callerActs, h]

theorem inv_entry {σ ε : Type} (p0 : Option String) : Inv p0 (State.entry p0 : State σ ε) := by
  constructor <;> simp [State.entry, Pc.beforeGo, Pc.betweenNotifyAndStop, GoPc.trace,
    backgroundActs_nil, chanCap]

/-- What the goroutine has done stays so when the contexts only get more
cancelled. -/

theorem trace_mono {ε : Type} {l : List (Act ε)} {g : GoPc} {p p' t t' : Option String}
    (h : GoPc.trace p t l g) (hp : ∀ e, p = some e → p' = some e) (ht : t ≠ none → t' ≠ none) :
    GoPc.trace p' t' l g := by
  cases g with
  | finished =>
    rcases h with ⟨h1, h2⟩ | ⟨e, h1, h2⟩
    · exact Or.inl ⟨h1, ht h2⟩
    · exact Or.inr ⟨e, hp e h1, h2⟩
  | _ => exact h

theorem inv_callerStep {σ ε : Type} {p0 : Option String} (f : Operation σ ε) {s : State σ ε}
    (h : Inv p0 s) : Inv p0 (callerStep f s) := by
  obtain ⟨pc, gpc, parentErr, derived, thisErr, subscribed, buf, log⟩ := s
  obtain ⟨h1, h2, h3, h4, h5, h6, h7, h9, h10⟩ := h
  cases pc with
  | withCancel =>
    have hg : gpc = .notStarted := h5.mpr rfl
    subst hg
    constructor <;>
      simp_all [HelmRepro.callerStep, Pc.beforeGo, Pc.betweenNotifyAndStop, GoPc.trace,
        backgroundActs_append, backgroundActs_cons, backgroundActs_nil, chanCap, Act.byCaller]
  | spawn =>
    constructor <;>
      simp_all [HelmRepro.callerStep, Pc.beforeGo, Pc.betweenNotifyAndStop, GoPc.trace,
        backgroundActs_append, backgroundActs_cons, backgroundActs_nil, chanCap, Act.byCaller]
  | inF st =>
    cases hf : f.step st thisErr.isSome <;> constructor <;>
      simp_all [HelmRepro.callerStep, Pc.beforeGo, Pc.betweenNotifyAndStop,
        backgroundActs_append, backgroundActs_cons, backgroundActs_nil, chanCap, Act.byCaller]
  | deferCancel r =>
    have ht : GoPc.trace parentErr (cancelThis
        (⟨.deferCancel r, gpc, parentErr, derived, thisErr, subscribed, buf, log⟩ :
          State σ ε)).thisErr (backgroundActs log) gpc :=
      trace_mono h10 (fun _ he => he) (by cases thisErr <;> simp [cancelThis])
    cases thisErr <;> constructor <;>
      simp_all [HelmRepro.callerStep, Pc.beforeGo, Pc.betweenNotifyAndStop, cancelThis,
        backgroundActs_append, backgroundActs_cons, backgroundActs_nil, chanCap, Act.byCaller]
  | _ =>
    constructor <;>
      simp_all [HelmRepro.callerStep, Pc.beforeGo, Pc.betweenNotifyAndStop,
        backgroundActs_append, backgroundActs_cons, backgroundActs_nil, chanCap, Act.byCaller]

theorem inv_backgroundStep {σ ε : Type} {p0 : Option String} (p : Bool) {s : State σ ε}
    (h : Inv p0 s) : Inv p0 (backgroundStep p s) := by
  obtain ⟨pc, gpc, parentErr, derived, thisErr, subscribed, buf, log⟩ := s
  obtain ⟨h1, h2, h3, h4, h5, h6, h7, h9, h10⟩ := h
  cases gpc with
  | select =>
    simp only [HelmRepro.backgroundStep]
    split_ifs with c1 c2 <;> constructor <;>
      simp_all [GoPc.trace, sigBranch,
        backgroundActs_append, backgroundActs_cons, backgroundActs_nil, chanCap, Act.byCaller]
  | cancelReq =>
    cases thisErr <;> constructor <;>
      simp_all [HelmRepro.backgroundStep, GoPc.trace, sigBranch, cancelThis,
        backgroundActs_append, backgroundActs_cons, backgroundActs_nil, chanCap, Act.byCaller]
  | printErr =>
    cases parentErr <;> constructor <;>
      simp_all [HelmRepro.backgroundStep, GoPc.trace, sigBranch, doneBranch,
        backgroundActs_append, backgroundActs_cons, backgroundActs_nil, chanCap, Act.byCaller]
  | _ =>
    constructor <;>
      simp_all [HelmRepro.backgroundStep, GoPc.trace, sigBranch,
        backgroundActs_append, backgroundActs_cons, backgroundActs_nil, chanCap, Act.byCaller]

theorem inv_interruptStep {σ ε : Type} {p0 : Option String} {s : State σ ε}
    (h : Inv p0 s) : Inv p0 (interruptStep s) := by
  obtain ⟨h1, h2, h3, h4, h5, h6, h7, h9, h10⟩ := h
  unfold HelmRepro.interruptStep
  split_ifs with c
  · exact ⟨h1, h2, h3, by simp only [chanCap] at c ⊢; omega, h5, h6, h7, h9, h10⟩
  · exact ⟨h1, h2, h3, h4, h5, h6, h7, h9, h10⟩

theorem inv_parentCancelStep {σ ε : Type} {p0 : Option String} (e : String) {s : State σ ε}
    (h : Inv p0 s) : Inv p0 (parentCancelStep e s) := by
  obtain ⟨pc, gpc, parentErr, derived, thisErr, subscribed, buf, log⟩ := s
  obtain ⟨h1, h2, h3, h4, h5, h6, h7, h9, h10⟩ := h
  cases parentErr with
  | some e0 => exact ⟨h1, h2, h3, h4, h5, h6, h7, h9, h10⟩
  | none =>
    exact ⟨h1, h2, h3, h4, h5, h6, by simp [HelmRepro.parentCancelStep],
      by simp [HelmRepro.parentCancelStep],
      trace_mono h10 (fun _ he => by simp at he) (fun ht => ht)⟩

theorem inv_propagateStep {σ ε : Type} {p0 : Option String} {s : State σ ε}
    (h : Inv p0 s) : Inv p0 (propagateStep s) := by
  obtain ⟨pc, gpc, parentErr, derived, thisErr, subscribed, buf, log⟩ := s
  obtain ⟨h1, h2, h3, h4, h5, h6, h7, h9, h10⟩ := h
  cases parentErr with
  | none => exact ⟨h1, h2, h3, h4, h5, h6, h7, h9, h10⟩
  | some e0 =>
    simp only [HelmRepro.propagateStep]
    split_ifs with c
    · exact ⟨by simp, h2, h3, h4, h5, by simp, h7, h9,
        trace_mono h10 (fun _ he => he) (fun _ => by simp)⟩
    · exact ⟨h1, h2, h3, h4, h5, h6, h7, h9, h10⟩

theorem inv_step {σ ε : Type} {p0 : Option String} (f : Operation σ ε) {s : State σ ε}
    (h : Inv p0 s) (e : Event) : Inv p0 (HelmRepro.step f s e) := by
  cases e with
  | caller => exact inv_callerStep f h
  | background p => exact inv_backgroundStep p h
  | interrupt => exact inv_interruptStep h
  | parentCancel e => exact inv_parentCancelStep e h
  | propagate => exact inv_propagateStep h
  | enter => exact h

theorem runFrom_nil {σ ε : Type} (f : Operation σ ε) (s : State σ ε) : runFrom f s [] = s := rfl

theorem runFrom_cons {σ ε : Type} (f : Operation σ ε) (s : State σ ε) (e : Event)
    (sched : List Event) : runFrom f s (e :: sched) = runFrom f (step f s e) sched := rfl

theorem runFrom_append {σ ε : Type} (f : Operation σ ε) (s : State σ ε) (a b : List Event) :
    runFrom f s (a ++ b) = runFrom f (runFrom f s a) b := by
  simp [runFrom, List.foldl_append]

theorem StopWithSigInt_append {σ ε : Type} (f : Operation σ ε) (ctx : Option String)
    (a b : List Event) :
    StopWithSigInt f ctx (a ++ b) = runFrom f (StopWithSigInt f ctx a) b := by
  simp [StopWithSigInt, runFrom_append]

/-- A property of the entry state that every event preserves holds after every
schedule. -/

theorem StopWithSigInt_induction {σ ε : Type} (f : Operation σ ε) (ctx : Option String)
    (P : State σ ε → Prop) (h0 : P (State.entry ctx))
    (hstep : ∀ s e, P s → P (step f s e)) (sched : List Event) :
    P (StopWithSigInt f ctx sched) := by
  induction sched using List.reverseRecOn with
  | nil => exact h0
  | append_singleton l e ih =>
    rw [StopWithSigInt_append]
    exact hstep _ e ih

theorem inv_StopWithSigInt {σ ε : Type} (f : Operation σ ε) (ctx : Option String)
    (sched : List Event) : Inv ctx (StopWithSigInt f ctx sched) :=
  StopWithSigInt_induction f ctx (Inv ctx) (inv_entry ctx) (fun _ e h => inv_step f h e) sched

theorem inv_runFrom {σ ε : Type} {p0 : Option String} (f : Operation σ ε) {s : State σ ε}
    (h : Inv p0 s) (sched : List Event) : Inv p0 (runFrom f s sched) := by
  induction sched generalizing s with
  | nil => exact h
  | cons e l ih => exact ih (inv_step f h e)

theorem fReturns_append {ε : Type} (l m : List (Act ε)) :
    fReturns (l ++ m) = fReturns l ++ fReturns m := by
  simp [fReturns]

theorem returns_append {ε : Type} (l m : List (Act ε)) :
    returns (l ++ m) = returns l ++ returns m := by
  simp [returns]

/-- What the log says `f` has returned is what the caller's program counter holds. -/

theorem fReturns_step {σ ε : Type} (f : Operation σ ε) (s : State σ ε) (e : Event)
    (h : fReturns s.log = s.pc.fResult) :
    fReturns (step f s e).log = (step f s e).pc.fResult := by
  obtain ⟨pc, gpc, parentErr, derived, thisErr, subscribed, buf, log⟩ := s
  cases e with
  | caller =>
    cases pc with
    | inF st =>
      cases hf : f.step st thisErr.isSome <;>
        simp_all [step, callerStep, fReturns_append, Pc.fResult, fReturns]
    | deferCancel r =>
      cases thisErr <;>
        simp_all [step, callerStep, cancelThis, fReturns_append, Pc.fResult, fReturns]
    | _ => simp_all [step, callerStep, fReturns_append, Pc.fResult, fReturns]
  | background p =>
    cases gpc with
    | select =>
      simp only [step, backgroundStep]
      split_ifs <;> simp_all [fReturns_append, fReturns]
    | cancelReq =>
      cases thisErr <;> simp_all [step, backgroundStep, cancelThis, fReturns_append, fReturns]
    | printErr =>
      cases parentErr <;> simp_all [step, backgroundStep, fReturns_append, fReturns]
    | _ => simp_all [step, backgroundStep, fReturns_append, fReturns]
  | interrupt =>
    simp only [step, interruptStep]
    split_ifs <;> simp_all
  | parentCancel e => cases parentErr <;> simpa [step, parentCancelStep] using h
  | propagate =>
    cases parentErr with
    | none => simpa [step, propagateStep] using h
    | some e0 =>
      simp only [step, propagateStep]
      split_ifs <;> simp_all
  | enter => exact h

/-- What the log says the call has returned is what the caller's program counter holds. -/

theorem returns_step {σ ε : Type} (f : Operation σ ε) (s : State σ ε) (e : Event)
    (h : returns s.log = s.pc.retResult) :
    returns (step f s e).log = (step f s e).pc.retResult := by
  obtain ⟨pc, gpc, parentErr, derived, thisErr, subscribed, buf, log⟩ := s
  cases e with
  | caller =>
    cases pc with
    | inF st =>
      cases hf : f.step st thisErr.isSome <;>
        simp_all [step, callerStep, returns_append, Pc.retResult, returns]
    | deferCancel r =>
      cases thisErr <;>
        simp_all [step, callerStep, cancelThis, returns_append, Pc.retResult, returns]
    | _ => simp_all [step, callerStep, returns_append, Pc.retResult, returns]
  | background p =>
    cases gpc with
    | select =>
      simp only [step, backgroundStep]
      split_ifs <;> simp_all [returns_append, returns]
    | cancelReq =>
      cases thisErr <;> simp_all [step, backgroundStep, cancelThis, returns_append, returns]
    | printErr =>
      cases parentErr <;> simp_all [step, backgroundStep, returns_append, returns]
    | _ => simp_all [step, backgroundStep, returns_append, returns]
  | interrupt =>
    simp only [step, interruptStep]
    split_ifs <;> simp_all
  | parentCancel e => cases parentErr <;> simpa [step, parentCancelStep] using h
  | propagate =>
    cases parentErr with
    | none => simpa [step, propagateStep] using h
    | some e0 =>
      simp only [step, propagateStep]
      split_ifs <;> simp_all
  | enter => exact h

theorem results_StopWithSigInt {σ ε : Type} (f : Operation σ ε) (ctx : Option String)
    (sched : List Event) :
    fReturns (StopWithSigInt f ctx sched).log = (StopWithSigInt f ctx sched).pc.fResult ∧
      returns (StopWithSigInt f ctx sched).log = (StopWithSigInt f ctx sched).pc.retResult :=
  StopWithSigInt_induction f ctx
    (fun s => fReturns s.log = s.pc.fResult ∧ returns s.log = s.pc.retResult)
    ⟨rfl, rfl⟩ (fun s e h => ⟨fReturns_step f s e h.1, returns_step f s e h.2⟩) sched

theorem result_eq_some {σ ε : Type} {s : State σ ε} {r : Option ε} :
    s.result = some r ↔ s.pc = .returned r := by
  cases h : s.pc <;> simp [State.result, h]

/-- Events of other threads leave the caller's program counter alone. -/

theorem pc_step_of_ne_caller {σ ε : Type} (f : Operation σ ε) (s : State σ ε) (e : Event)
    (he : e ≠ .caller) : (step f s e).pc = s.pc := by
  obtain ⟨pc, gpc, parentErr, derived, thisErr, subscribed, buf, log⟩ := s
  cases e with
  | caller => exact absurd rfl he
  | background p =>
    cases gpc with
    | select =>
      simp only [step, backgroundStep]
      split_ifs <;> rfl
    | cancelReq => cases thisErr <;> rfl
    | printErr => cases parentErr <;> rfl
    | _ => rfl
  | interrupt =>
    simp only [step, interruptStep]
    split_ifs <;> rfl
  | parentCancel e => cases parentErr <;> rfl
  | propagate =>
    cases parentErr with
    | none => rfl
    | some e0 =>
      simp only [step, propagateStep]
      split_ifs <;> rfl
  | enter => rfl

/-- Each step of the caller after `f` has returned brings the return one
statement nearer, and keeps the value. -/

theorem toGo_callerStep {σ ε : Type} (f : Operation σ ε) (s : State σ ε) (r : Option ε)
    (h : s.pc.fResult = [r]) :
    (callerStep f s).pc.fResult = [r] ∧ (callerStep f s).pc.toGo = s.pc.toGo - 1 := by
  obtain ⟨pc, gpc, parentErr, derived, thisErr, subscribed, buf, log⟩ := s
  cases pc <;> simp_all [Pc.fResult, callerStep, Pc.toGo]

theorem toGo_runFrom {σ ε : Type} (f : Operation σ ε) (r : Option ε) (sched : List Event) :
    ∀ s : State σ ε, s.pc.fResult = [r] →
      (runFrom f s sched).pc.fResult = [r] ∧
        (runFrom f s sched).pc.toGo = s.pc.toGo - callerSteps sched := by
  induction sched with
  | nil => intro s h; exact ⟨h, rfl⟩
  | cons e l ih =>
    intro s h
    rw [runFrom_cons]
    by_cases he : e = .caller
    · subst he
      obtain ⟨h1, h2⟩ := toGo_callerStep f s r h
      obtain ⟨h3, h4⟩ := ih (step f s .caller) h1
      refine ⟨h3, ?_⟩
      rw [h4]
      simp only [step, callerSteps, List.count_cons_self] at h2 ⊢
      rw [h2]
      omega
    · have hpc := pc_step_of_ne_caller f s e he
      obtain ⟨h3, h4⟩ := ih (step f s e) (by rw [hpc]; exact h)
      refine ⟨h3, ?_⟩
      rw [h4, hpc]
      simp [callerSteps, List.count_cons, he]

theorem returned_of_toGo_zero {σ ε : Type} {pc : Pc σ ε} {r : Option ε}
    (h1 : pc.fResult = [r]) (h2 : pc.toGo = 0) : pc = .returned r := by
  cases pc <;> simp_all [Pc.fResult, Pc.toGo]

theorem after_snoc_more {σ ε : Type} (f : Operation σ ε) (obs : List Bool) (b : Bool) :
    ∀ s st st', f.after s obs = some st → f.step st b = .more st' →
      f.after s (obs ++ [b]) = some st' := by
  induction obs with
  | nil =>
    intro s st st' h hs
    simp only [Operation.after, Option.some.injEq] at h
    subst h
    simp [Operation.after, hs]
  | cons a l ih =>
    intro s st st' h hs
    simp only [Operation.after, List.cons_append] at h ⊢
    cases ha : f.step s a with
    | more s1 =>
      rw [ha] at h
      simp only at h ⊢
      exact ih s1 st st' h hs
    | done r => rw [ha] at h; simp at h

theorem run_snoc_done {σ ε : Type} (f : Operation σ ε) (obs : List Bool) (b : Bool) :
    ∀ s st r, f.after s obs = some st → f.step st b = .done r →
      f.run s (obs ++ [b]) = some r := by
  induction obs with
  | nil =>
    intro s st r h hs
    simp only [Operation.after, Option.some.injEq] at h
    subst h
    simp [Operation.run, hs]
  | cons a l ih =>
    intro s st r h hs
    simp only [Operation.after, Operation.run, List.cons_append] at h ⊢
    cases ha : f.step s a with
    | more s1 =>
      rw [ha] at h
      simp only at h ⊢
      exact ih s1 st r h hs
    | done r => rw [ha] at h; simp at h

theorem thisErr_step_of_ne_caller {σ ε : Type} (f : Operation σ ε) (s : State σ ε) (e : Event)
    (he : e ≠ .caller) (h : (step f s e).thisErr = none) : s.thisErr = none := by
  obtain ⟨pc, gpc, parentErr, derived, thisErr, subscribed, buf, log⟩ := s
  cases e with
  | caller => exact absurd rfl he
  | background p =>
    cases gpc with
    | select =>
      simp only [step, backgroundStep] at h
      split_ifs at h <;> exact h
    | cancelReq => cases thisErr <;> simp_all [step, backgroundStep, cancelThis]
    | printErr => cases parentErr <;> simp_all [step, backgroundStep]
    | _ => simpa [step, backgroundStep] using h
  | interrupt =>
    simp only [step, interruptStep] at h
    split_ifs at h <;> exact h
  | parentCancel e => cases parentErr <;> simpa [step, parentCancelStep] using h
  | propagate =>
    cases parentErr with
    | none => simpa [step, propagateStep] using h
    | some e0 =>
      simp only [step, propagateStep] at h
      split_ifs at h
      exact h
  | enter => exact h

/-- The flags that account for where `f` is are extended, at each step of `f`,
by the flag of `thisCtx` at that moment. -/

theorem seenInv_step {σ ε : Type} {p0 : Option String} (f : Operation σ ε) {s : State σ ε}
    (hi : Inv p0 s) (h : SeenInv f p0 s) (e : Event) : SeenInv f p0 (step f s e) := by
  by_cases he : e = .caller
  · subst he
    obtain ⟨obs, h1, h2, h3⟩ := h
    obtain ⟨hc, hd, -, -, -, -, -, -, -⟩ := hi
    obtain ⟨pc, gpc, parentErr, derived, thisErr, subscribed, buf, log⟩ := s
    cases pc with
    | call =>
      simp only [Seen] at h1
      subst h1
      exact ⟨[], by simp [step, callerStep, Seen, Operation.after], by simp, by simp⟩
    | inF st =>
      simp only [Seen] at h1
      have hflag : p0 ≠ none → thisErr.isSome = true := by
        intro h0
        have := hc h0 (hd.mpr (by simp))
        cases thisErr <;> simp_all
      cases hf : f.step st thisErr.isSome with
      | more st' =>
        refine ⟨obs ++ [thisErr.isSome], ?_, ?_, ?_⟩
        · simpa [step, callerStep, hf, Seen] using after_snoc_more f obs _ _ st st' h1 hf
        · intro h0 b hb
          rcases List.mem_append.mp hb with hb | hb
          · exact h2 h0 b hb
          · simp only [List.mem_singleton] at hb
            rw [hb]; exact hflag h0
        · simp only [step, callerStep, hf]
          intro ht b hb
          rcases List.mem_append.mp hb with hb | hb
          · exact h3 ht b hb
          · simp only [List.mem_singleton] at hb
            have ht' : thisErr = none := ht
            rw [hb, ht']; rfl
      | done r =>
        refine ⟨obs ++ [thisErr.isSome], ?_, ?_, ?_⟩
        · simpa [step, callerStep, hf, Seen] using run_snoc_done f obs _ _ st r h1 hf
        · intro h0 b hb
          rcases List.mem_append.mp hb with hb | hb
          · exact h2 h0 b hb
          · simp only [List.mem_singleton] at hb
            rw [hb]; exact hflag h0
        · simp only [step, callerStep, hf]
          intro ht b hb
          rcases List.mem_append.mp hb with hb | hb
          · exact h3 ht b hb
          · simp only [List.mem_singleton] at hb
            have ht' : thisErr = none := ht
            rw [hb, ht']; rfl
    | deferCancel r =>
      refine ⟨obs, ?_, h2, ?_⟩
      · simpa [step, callerStep, Seen] using h1
      · cases thisErr <;> simp [step, callerStep, cancelThis]
    | withCancel =>
      simp only [Seen] at h1
      subst h1
      exact ⟨[], by simp [step, callerStep, Seen], by simp, by simp⟩
    | deferStop r =>
      exact ⟨obs, by simpa [step, callerStep, Seen] using h1, h2,
        by simpa [step, callerStep] using h3⟩
    | returned r =>
      exact ⟨obs, by simpa [step, callerStep, Seen] using h1, h2,
        by simpa [step, callerStep] using h3⟩
    | _ =>
      simp only [Seen] at h1
      subst h1
      exact ⟨[], by simp [step, callerStep, Seen], by simp, by simp⟩
  · obtain ⟨obs, h1, h2, h3⟩ := h
    refine ⟨obs, ?_, h2, fun ht => h3 (thisErr_step_of_ne_caller f s e he ht)⟩
    rw [pc_step_of_ne_caller f s e he]
    exact h1

theorem seenInv_StopWithSigInt {σ ε : Type} (f : Operation σ ε) (ctx : Option String)
    (sched : List Event) : SeenInv f ctx (StopWithSigInt f ctx sched) :=
  (StopWithSigInt_induction f ctx (fun s => Inv ctx s ∧ SeenInv f ctx s)
    ⟨inv_entry ctx, [], rfl, by simp, by simp⟩
    (fun _ e h => ⟨inv_step f h.1 e, seenInv_step f h.1 h.2 e⟩) sched).2

theorem callerSteps_append (a b : List Event) :
    callerSteps (a ++ b) = callerSteps a + callerSteps b := by
  simp [callerSteps]

/-- Up to the call of `f` the caller's place depends on the number of its
steps only. -/

theorem pc_before_call {σ ε : Type} (f : Operation σ ε) (ctx : Option String)
    (sched : List Event) (h : callerSteps sched ≤ 6) :
    (StopWithSigInt f ctx sched).pc = entryPc f (callerSteps sched) := by
  induction sched using List.reverseRecOn with
  | nil => rfl
  | append_singleton l e ih =>
    rw [callerSteps_append] at h ⊢
    rw [StopWithSigInt_append, runFrom_cons, runFrom_nil]
    by_cases he : e = .caller
    · subst he
      have h1 : callerSteps [Event.caller] = 1 := rfl
      rw [h1] at h ⊢
      have ih' := ih (by omega)
      generalize StopWithSigInt f ctx l = s at ih'
      obtain ⟨pc, gpc, parentErr, derived, thisErr, subscribed, buf, log⟩ := s
      simp only at ih'
      subst ih'
      have hn : callerSteps l ≤ 5 := by omega
      generalize callerSteps l = n at hn
      interval_cases n <;> rfl
    · have h0 : callerSteps [e] = 0 := by
        have h' : ¬ (e == Event.caller) = true := by simpa using he
        simp [callerSteps, List.count_cons, h']
      rw [h0] at h ⊢
      rw [pc_step_of_ne_caller f _ e he]
      exact ih (by omega)

/-- C1: `StopWithSigInt(f, ctx)` returns exactly what `f` returns when called
on the derived context, for every operation, parent context (cancelled or
not) and schedule of interrupts, parent cancellations and thread steps.
After six steps of the caller `f` has been called, from its start, and
`thisCtx` exists.  At each step of `f` the flag it is shown is that of
`thisCtx` at that moment: if `f` goes on, the caller is in `f`'s next state; if
`f` returns `r` (`nil` or an error), then after that step and any schedule
with two more steps of the caller the call has returned `r`.  And whenever the
call has returned `r`, `r` is a value that `f`, run on its own, returns on some
sequence of flags, `f` returned once, with `r`, and the call returned once,
with `r`. -/

theorem StopWithSigInt_result {σ ε : Type} (f : Operation σ ε) (ctx : Option String)
    (sched : List Event) :
    (callerSteps sched = 6 →
        (StopWithSigInt f ctx sched).pc = .inF f.start ∧
        (StopWithSigInt f ctx sched).derived = true) ∧
      (∀ st st', (StopWithSigInt f ctx sched).pc = .inF st →
        f.step st (StopWithSigInt f ctx sched).thisErr.isSome = .more st' →
        (StopWithSigInt f ctx (sched ++ [.caller])).pc = .inF st') ∧
      (∀ st r, (StopWithSigInt f ctx sched).pc = .inF st →
        f.step st (StopWithSigInt f ctx sched).thisErr.isSome = .done r →
        ∀ more, 2 ≤ callerSteps more →
          (StopWithSigInt f ctx (sched ++ .caller :: more)).result = some r) ∧
      (∀ r, (StopWithSigInt f ctx sched).result = some r →
        (∃ obs, f.run f.start obs = some r) ∧
        fReturns (StopWithSigInt f ctx sched).log = [r] ∧
        returns (StopWithSigInt f ctx sched).log = [r]) := by
  refine ⟨?_, ?_, ?_, ?_⟩
  · intro h6
    have hpc := pc_before_call f ctx sched (by omega)
    rw [h6] at hpc
    refine ⟨hpc, (inv_StopWithSigInt f ctx sched).derived.mpr ?_⟩
    rw [hpc]; simp [entryPc]
  · intro st st' hpc hf
    rw [StopWithSigInt_append, runFrom_cons, runFrom_nil]
    generalize StopWithSigInt f ctx sched = s at hpc hf
    obtain ⟨pc, gpc, parentErr, derived, thisErr, subscribed, buf, log⟩ := s
    simp only at hpc hf
    subst hpc
    simp [step, callerStep, hf]
  · intro st r hpc hf more hm
    have hstep : (step f (StopWithSigInt f ctx sched) .caller).pc.fResult = [r] := by
      generalize StopWithSigInt f ctx sched = s at hpc hf
      obtain ⟨pc, gpc, parentErr, derived, thisErr, subscribed, buf, log⟩ := s
      simp only at hpc hf
      subst hpc
      simp [step, callerStep, hf, Pc.fResult]
    obtain ⟨h3, h4⟩ := toGo_runFrom f r more _ hstep
    rw [StopWithSigInt_append, runFrom_cons, result_eq_some]
    apply returned_of_toGo_zero h3
    rw [h4]
    have : (step f (StopWithSigInt f ctx sched) .caller).pc.toGo ≤ 2 := by
      cases hp : (step f (StopWithSigInt f ctx sched) .caller).pc <;> simp [Pc.toGo]
    omega
  · intro r h
    obtain ⟨h1, h2⟩ := results_StopWithSigInt f ctx sched
    obtain ⟨obs, ho, -, -⟩ := seenInv_StopWithSigInt f ctx sched
    rw [result_eq_some] at h
    rw [h] at ho
    exact ⟨⟨obs, ho⟩, by rw [h1, h]; rfl, by rw [h2, h]; rfl⟩

theorem StopWithSigInt_result_witness :
    (StopWithSigInt flaky none failingRun).pc = .inF 2 ∧
      flaky.step 2 (StopWithSigInt flaky none failingRun).thisErr.isSome =
        .done (some "install failed") ∧
      (StopWithSigInt flaky none (failingRun ++ .caller :: [.interrupt, .caller, .caller])).result
        = some (some "install failed") ∧
      (StopWithSigInt flaky none
        (failingRun ++ .caller :: [.interrupt, .caller, .caller])).thisErr ≠ none ∧
      (StopWithSigInt probe none (List.replicate 9 .caller)).result = some none ∧
      (StopWithSigInt flaky none (List.replicate 11 .caller)).result =
        some (some "install failed") ∧
      (StopWithSigInt flaky none (List.replicate 11 .caller)).thisErr =
        some "context canceled" ∧
      (StopWithSigInt flaky none (List.replicate 8 .caller)).thisErr = none ∧
      (StopWithSigInt flaky none interruptedRun).result = some (some "stopped") :=
  ⟨by decide, by decide,
    (StopWithSigInt_result flaky none failingRun).2.2.1 2 (some "install failed")
      (by decide) (by decide) [.interrupt, .caller, .caller] (by decide),
    by decide, by decide, by decide, by decide, by decide, by decide⟩

theorem callerActs_backgroundStep {σ ε : Type} (p : Bool) (s : State σ ε) :
    callerActs (backgroundStep p s).log = callerActs s.log := by
  obtain ⟨pc, gpc, parentErr, derived, thisErr, subscribed, buf, log⟩ := s
  cases gpc with
  | select =>
    simp only [backgroundStep]
    split_ifs <;> simp [callerActs_append, callerActs_cons, callerActs_nil, Act.byCaller]
  | cancelReq =>
    cases thisErr <;>
      simp [backgroundStep, cancelThis, callerActs_append, callerActs_cons, callerActs_nil,
        Act.byCaller]
  | printErr =>
    cases parentErr <;>
      simp [backgroundStep, callerActs_append, callerActs_cons, callerActs_nil, Act.byCaller]
  | _ => simp [backgroundStep, callerActs_append, callerActs_cons, callerActs_nil, Act.byCaller]

theorem log_interruptStep {σ ε : Type} (s : State σ ε) : (interruptStep s).log = s.log := by
  simp only [interruptStep]
  split_ifs <;> rfl

theorem log_parentCancelStep {σ ε : Type} (e : String) (s : State σ ε) :
    (parentCancelStep e s).log = s.log := by
  obtain ⟨pc, gpc, parentErr, derived, thisErr, subscribed, buf, log⟩ := s
  cases parentErr <;> rfl

theorem log_propagateStep {σ ε : Type} (s : State σ ε) : (propagateStep s).log = s.log := by
  obtain ⟨pc, gpc, parentErr, derived, thisErr, subscribed, buf, log⟩ := s
  cases parentErr with
  | none => rfl
  | some e0 =>
    simp only [propagateStep]
    split_ifs <;> rfl

theorem callerInv_step {σ ε : Type} {p0 : Option String} (f : Operation σ ε)
    {s : State σ ε} (hi : Inv p0 s) (h : CallerInv p0 s) (e : Event) :
    CallerInv p0 (step f s e) := by
  obtain ⟨b, hb, hp⟩ := h
  cases e with
  | caller =>
    obtain ⟨h1, h2, -, -, -, -, -, -, -⟩ := hi
    obtain ⟨pc, gpc, parentErr, derived, thisErr, subscribed, buf, log⟩ := s
    cases pc with
    | call =>
      refine ⟨thisErr.isSome, ?_, ?_⟩
      · simp_all [step, callerStep, callerActs_append, callerActs_cons, callerActs_nil,
          Act.byCaller, callerTrace]
      · intro h0
        have hd : derived = true := by simpa using h2
        have := h1 h0 hd
        cases thisErr <;> simp_all
    | inF st =>
      refine ⟨b, ?_, hp⟩
      cases hf : f.step st thisErr.isSome <;>
        simp_all [step, callerStep, callerActs_append, callerActs_cons, callerActs_nil,
          Act.byCaller, callerTrace]
    | deferCancel r =>
      refine ⟨b, ?_, hp⟩
      cases thisErr <;>
        simp_all [step, callerStep, cancelThis, callerActs_append, callerActs_cons,
          callerActs_nil, Act.byCaller, callerTrace]
    | _ =>
      refine ⟨b, ?_, hp⟩
      simp_all [step, callerStep, callerActs_append, callerActs_cons, callerActs_nil,
        Act.byCaller, callerTrace]
  | background p =>
    refine ⟨b, ?_, hp⟩
    have hpc := pc_step_of_ne_caller f s (.background p) (by simp)
    rw [hpc]
    simpa [step, callerActs_backgroundStep] using hb
  | interrupt =>
    refine ⟨b, ?_, hp⟩
    have hpc := pc_step_of_ne_caller f s .interrupt (by simp)
    rw [hpc]
    simpa [step, log_interruptStep] using hb
  | parentCancel e =>
    refine ⟨b, ?_, hp⟩
    have hpc := pc_step_of_ne_caller f s (.parentCancel e) (by simp)
    rw [hpc]
    simpa [step, log_parentCancelStep] using hb
  | propagate =>
    refine ⟨b, ?_, hp⟩
    have hpc := pc_step_of_ne_caller f s .propagate (by simp)
    rw [hpc]
    simpa [step, log_propagateStep] using hb
  | enter => exact ⟨b, hb, hp⟩

theorem callerInv_StopWithSigInt {σ ε : Type} (f : Operation σ ε) (ctx : Option String)
    (sched : List Event) : CallerInv ctx (StopWithSigInt f ctx sched) :=
  (StopWithSigInt_induction f ctx (fun s => Inv ctx s ∧ CallerInv ctx s)
    ⟨inv_entry ctx, true, rfl, fun _ => rfl⟩
    (fun _ e h => ⟨inv_step f h.1 e, callerInv_step f h.1 h.2 e⟩) sched).2

theorem stops_callerActs {ε : Type} (l : List (Act ε)) : stops (callerActs l) = stops l := by
  induction l with
  | nil => rfl
  | cons a l ih =>
    rw [callerActs_cons]
    cases a <;> simp_all [Act.byCaller, stops, List.countP_cons] <;> split_ifs <;> simp_all

/-- C2: on every exit path the deferred function has run before control
returns.  When `StopWithSigInt` has returned `r` (`nil` or an error, whatever
interrupts and parent cancellations occurred), the caller's actions were, in
this order: subscribe, start the goroutine, call `f`, `f` returns `r`,
`signal.Stop`, `cancel()`, return `r`; `signal.Stop` occurs once in the whole
log; and in the state at return the channel is deregistered and `thisCtx` is
cancelled. -/

theorem StopWithSigInt_cleanup {σ ε : Type} (f : Operation σ ε) (ctx : Option String)
    (sched : List Event) (r : Option ε)
    (h : (StopWithSigInt f ctx sched).result = some r) :
    (∃ b, callerActs (StopWithSigInt f ctx sched).log =
        [.subscribe, .spawn, .fCall b, .fDone r, .stop, .cancel .caller, .ret r]) ∧
      stops (StopWithSigInt f ctx sched).log = 1 ∧
      (StopWithSigInt f ctx sched).subscribed = false ∧
      (StopWithSigInt f ctx sched).thisErr ≠ none := by
  rw [result_eq_some] at h
  obtain ⟨b, hb, -⟩ := callerInv_StopWithSigInt f ctx sched
  have hi := inv_StopWithSigInt f ctx sched
  rw [h] at hb
  refine ⟨⟨b, hb⟩, ?_, ?_, hi.returned r h⟩
  · rw [← stops_callerActs, hb]
    simp [callerTrace, stops]
  · rw [hi.subscribed, h]
    rfl

theorem StopWithSigInt_cleanup_witness :
    (StopWithSigInt probe none
        [.caller, .caller, .caller, .caller, .caller, .interrupt, .background false, .caller,
          .caller, .background false, .caller, .caller, .interrupt]).result = some none ∧
      stops (StopWithSigInt probe none
        [.caller, .caller, .caller, .caller, .caller, .interrupt, .background false, .caller,
          .caller, .background false, .caller, .caller, .interrupt]).log = 1 :=
  ⟨by decide, (StopWithSigInt_cleanup probe none _ none (by decide)).2.1⟩

/-- C5: if the parent context is already cancelled at entry, the context handed
to `f` is cancelled when `f` is invoked and at every check `f` makes, under
every schedule (in particular when no interrupt fires).  Every `fCall` action
of the log carries the flag `true`; from line 39 on `thisCtx.Err()` is
non-nil; six steps of the caller reach the call, with the flag `true`; each
step of `f` is `f.step` on the flag `true`: if `f` goes on the caller is in
`f`'s next state, if `f` returns `r` the caller holds `r`; and a value the call
has returned is the value `f`, run on its own, returns when every check sees
the context cancelled. -/

theorem StopWithSigInt_parent_cancelled_at_entry {σ ε : Type} (f : Operation σ ε)
    (e : String) (sched : List Event) :
    (∀ b, Act.fCall b ∈ (StopWithSigInt f (some e) sched).log → b = true) ∧
      ((StopWithSigInt f (some e) sched).derived = true →
        (StopWithSigInt f (some e) sched).thisErr ≠ none) ∧
      (StopWithSigInt f (some e) (List.replicate 6 .caller)).log =
        [.subscribe, .spawn, .fCall true] ∧
      (∀ st st', (StopWithSigInt f (some e) sched).pc = .inF st →
        f.step st true = .more st' →
        (StopWithSigInt f (some e) (sched ++ [.caller])).pc = .inF st') ∧
      (∀ st r, (StopWithSigInt f (some e) sched).pc = .inF st →
        f.step st true = .done r →
        (StopWithSigInt f (some e) (sched ++ [.caller])).pc = .deferStop r) ∧
      (∀ r, (StopWithSigInt f (some e) sched).result = some r →
        ∃ n, f.run f.start (List.replicate n true) = some r) := by
  have hi := inv_StopWithSigInt f (some e) sched
  obtain ⟨b, hb, hp⟩ := callerInv_StopWithSigInt f (some e) sched
  have hflag : ∀ st, (StopWithSigInt f (some e) sched).pc = .inF st →
      (StopWithSigInt f (some e) sched).thisErr.isSome = true := by
    intro st hpc
    have hd : (StopWithSigInt f (some e) sched).derived = true :=
      hi.derived.mpr (by rw [hpc]; simp)
    exact Option.isSome_iff_ne_none.mpr (hi.child (by simp) hd)
  refine ⟨?_, fun hd => hi.child (by simp) hd, rfl, ?_, ?_, ?_⟩
  · intro b' hmem
    have hmem' : Act.fCall b' ∈ callerActs (StopWithSigInt f (some e) sched).log := by
      simp [callerActs, hmem, Act.byCaller]
    rw [hb] at hmem'
    have hbt := hp (by simp)
    cases hpc : (StopWithSigInt f (some e) sched).pc <;>
      simp_all [callerTrace]
  · intro st st' hpc hf
    have ht := hflag st hpc
    rw [StopWithSigInt_append, runFrom_cons, runFrom_nil]
    generalize StopWithSigInt f (some e) sched = s at hpc ht
    obtain ⟨pc, gpc, parentErr, derived, thisErr, subscribed, buf, log⟩ := s
    simp only at hpc ht
    subst hpc
    simp [step, callerStep, ht, hf]
  · intro st r hpc hf
    have ht := hflag st hpc
    rw [StopWithSigInt_append, runFrom_cons, runFrom_nil]
    generalize StopWithSigInt f (some e) sched = s at hpc ht
    obtain ⟨pc, gpc, parentErr, derived, thisErr, subscribed, buf, log⟩ := s
    simp only at hpc ht
    subst hpc
    simp [step, callerStep, ht, hf]
  · intro r hr
    obtain ⟨obs, ho, hall, -⟩ := seenInv_StopWithSigInt f (some e) sched
    rw [result_eq_some] at hr
    rw [hr] at ho
    refine ⟨obs.length, ?_⟩
    rw [← List.eq_replicate_of_mem (hall (by simp))]
    exact ho

theorem StopWithSigInt_parent_cancelled_at_entry_witness :
    (StopWithSigInt probe (some "context canceled") (List.replicate 6 .caller)).pc = .inF () ∧
      probe.step () true = .done (some "stopped") ∧
      (StopWithSigInt probe (some "context canceled")
        (List.replicate 6 .caller ++ [.caller])).pc = .deferStop (some "stopped") ∧
      (StopWithSigInt probe (some "context canceled") (List.replicate 9 .caller)).result =
        some (some "stopped") ∧
      (StopWithSigInt flaky (some "context deadline exceeded")
        (List.replicate 9 .caller)).result = some (some "stopped") :=
  ⟨by decide, by decide,
    (StopWithSigInt_parent_cancelled_at_entry probe "context canceled"
      (List.replicate 6 .caller)).2.2.2.2.1 () (some "stopped") (by decide) (by decide),
    by decide, by decide⟩

theorem parentErr_step {σ ε : Type} (f : Operation σ ε) (s : State σ ε) (e : Event) :
    (step f s e).parentErr =
      match s.parentErr, e with
      | none, .parentCancel err => some err
      | p, _ => p := by
  obtain ⟨pc, gpc, parentErr, derived, thisErr, subscribed, buf, log⟩ := s
  cases e with
  | caller =>
    cases pc with
    | inF st => cases hf : f.step st thisErr.isSome <;> simp [step, callerStep, hf]
    | deferCancel r => cases thisErr <;> simp [step, callerStep, cancelThis]
    | _ => simp [step, callerStep]
  | background p =>
    cases gpc with
    | select =>
      simp only [step, backgroundStep]
      split_ifs <;> simp
    | cancelReq => cases thisErr <;> simp [step, backgroundStep, cancelThis]
    | printErr => cases parentErr <;> simp [step, backgroundStep]
    | _ => simp [step, backgroundStep]
  | interrupt =>
    simp only [step, interruptStep]
    split_ifs <;> simp
  | parentCancel e => cases parentErr <;> simp [step, parentCancelStep]
  | propagate =>
    cases parentErr with
    | none => simp [step, propagateStep]
    | some e0 =>
      simp only [step, propagateStep]
      split_ifs <;> simp
  | enter => simp [step]

theorem derived_step {σ ε : Type} (f : Operation σ ε) (s : State σ ε) (e : Event)
    (h : s.derived = true) : (step f s e).derived = true := by
  obtain ⟨pc, gpc, parentErr, derived, thisErr, subscribed, buf, log⟩ := s
  cases e with
  | caller =>
    cases pc with
    | inF st => cases hf : f.step st thisErr.isSome <;> simpa [step, callerStep, hf] using h
    | deferCancel r => cases thisErr <;> simpa [step, callerStep, cancelThis] using h
    | _ => simp_all [step, callerStep]
  | background p =>
    cases gpc with
    | select =>
      simp only [step, backgroundStep]
      split_ifs <;> exact h
    | cancelReq => cases thisErr <;> simpa [step, backgroundStep, cancelThis] using h
    | printErr => cases parentErr <;> simpa [step, backgroundStep] using h
    | _ => simpa [step, backgroundStep] using h
  | interrupt =>
    simp only [step, interruptStep]
    split_ifs <;> exact h
  | parentCancel e => cases parentErr <;> exact h
  | propagate =>
    cases parentErr with
    | none => exact h
    | some e0 =>
      simp only [step, propagateStep]
      split_ifs <;> exact h
  | enter => exact h

/-- Once `thisCtx` is cancelled it stays cancelled. -/

theorem thisErr_step {σ ε : Type} {p0 : Option String} (f : Operation σ ε) {s : State σ ε}
    (hi : Inv p0 s) (hd : s.derived = true) (h : s.thisErr ≠ none) (e : Event) :
    (step f s e).thisErr ≠ none := by
  by_cases he : e = .caller
  · subst he
    have hpc := hi.derived.mp hd
    obtain ⟨pc, gpc, parentErr, derived, thisErr, subscribed, buf, log⟩ := s
    cases pc with
    | withCancel => exact absurd rfl hpc
    | inF st => cases hf : f.step st thisErr.isSome <;> simpa [step, callerStep, hf] using h
    | deferCancel r => cases thisErr <;> simp_all [step, callerStep, cancelThis]
    | _ => simpa [step, callerStep] using h
  · intro hn
    exact h (thisErr_step_of_ne_caller f s e he hn)

theorem thisErr_runFrom {σ ε : Type} {p0 : Option String} (f : Operation σ ε)
    (sched : List Event) :
    ∀ s : State σ ε, Inv p0 s → s.derived = true → s.thisErr ≠ none →
      (runFrom f s sched).thisErr ≠ none := by
  induction sched with
  | nil => intro s _ _ h; exact h
  | cons e l ih =>
    intro s hi hd h
    exact ih _ (inv_step f hi e) (derived_step f s e hd) (thisErr_step f hi hd h e)

/-- Once the parent is cancelled and `thisCtx` exists, a propagation step
leaves `thisCtx` cancelled. -/

theorem propagate_runFrom {σ ε : Type} {p0 : Option String} (f : Operation σ ε)
    (sched : List Event) :
    ∀ s : State σ ε, Inv p0 s → s.derived = true → s.parentErr ≠ none →
      Event.propagate ∈ sched → (runFrom f s sched).thisErr ≠ none := by
  induction sched with
  | nil => intro s _ _ _ h; simp at h
  | cons e l ih =>
    intro s hi hd hp hm
    rw [runFrom_cons]
    have hd' := derived_step f s e hd
    have hi' := inv_step f hi e
    have hp' : (step f s e).parentErr ≠ none := by
      rw [parentErr_step]
      cases hpe : s.parentErr with
      | none => exact absurd hpe hp
      | some v => simp
    by_cases he : e = .propagate
    · subst he
      apply thisErr_runFrom f l _ hi' hd'
      obtain ⟨pc, gpc, parentErr, derived, thisErr, subscribed, buf, log⟩ := s
      cases parentErr with
      | none => exact absurd rfl hp
      | some v =>
        simp only [step, propagateStep]
        split_ifs with c
        · simp
        · intro hn
          exact c ⟨hd, hn⟩
    · rcases List.mem_cons.mp hm with hm | hm
      · exact absurd hm.symm he
      · exact ih _ hi' hd' hp' hm

theorem quiet_step {σ ε : Type} (f : Operation σ ε) {s : State σ ε} (h : Quiet s)
    (e : Event) (h1 : e ≠ .interrupt) (h2 : e.isParentCancel = false) :
    Quiet (step f s e) := by
  obtain ⟨pc, gpc, parentErr, derived, thisErr, subscribed, buf, log⟩ := s
  obtain ⟨hb, hp, hg⟩ := h
  simp only at hb hp hg
  subst hb hp
  cases e with
  | caller =>
    cases pc with
    | inF st =>
      cases hf : f.step st thisErr.isSome <;> simp_all [Quiet, step, callerStep]
    | deferCancel r => cases thisErr <;> simp_all [Quiet, step, callerStep, cancelThis]
    | _ => simp_all [Quiet, step, callerStep]
  | background p => rcases hg with hg | hg <;> subst hg <;> simp [Quiet, step, backgroundStep]
  | interrupt => exact absurd rfl h1
  | parentCancel err => simp [Event.isParentCancel] at h2
  | propagate => exact ⟨rfl, rfl, hg⟩
  | enter => exact ⟨rfl, rfl, hg⟩

theorem quiet_runFrom {σ ε : Type} (f : Operation σ ε) (sched : List Event) :
    ∀ s : State σ ε, Quiet s → noInterrupt sched → noParentCancel sched →
      Quiet (runFrom f s sched) := by
  induction sched with
  | nil => intro s h _ _; exact h
  | cons e l ih =>
    intro s h h1 h2
    rw [runFrom_cons]
    apply ih
    · apply quiet_step f h e
      · intro he; exact h1 (by simp [he])
      · exact h2 e (List.mem_cons_self _ _)
    · intro hm; exact h1 (List.mem_cons_of_mem _ hm)
    · intro ev hm; exact h2 ev (List.mem_cons_of_mem _ hm)

theorem quiet_StopWithSigInt {σ ε : Type} (f : Operation σ ε) (sched : List Event)
    (h1 : noInterrupt sched) (h2 : noParentCancel sched) :
    Quiet (StopWithSigInt f none sched) :=
  quiet_runFrom f sched (State.entry none) ⟨rfl, rfl, Or.inl rfl⟩ h1 h2

theorem written_append {ε : Type} (t : Tid) (l m : List (Act ε)) :
    written t (l ++ m) = written t l ++ written t m := by
  simp [written]

/-- C3, what the code does: when the parent is `context.Background()` (never
cancelled) and no interrupt is dispatched, the goroutine of lines 48-57 is
still blocked in its `select` when `StopWithSigInt` has returned, and stays
there under every continuation of the schedule without such an event. -/

theorem goroutine_outlives_call {σ ε : Type} (f : Operation σ ε) (sched : List Event)
    (r : Option ε) (h1 : noInterrupt sched) (h2 : noParentCancel sched)
    (h : (StopWithSigInt f none sched).result = some r) :
    (StopWithSigInt f none sched).gpc = .select := by
  obtain ⟨-, -, hq⟩ := quiet_StopWithSigInt f sched h1 h2
  have hi := inv_StopWithSigInt f none sched
  rw [result_eq_some] at h
  rcases hq with hq | hq
  · have := hi.started.mp hq
    rw [h] at this
    exact absurd this (by simp [Pc.beforeGo])
  · exact hq

theorem goroutine_outlives_call_witness :
    (StopWithSigInt probe none
      (List.replicate 9 .caller ++ List.replicate 5 (.background true))).result
        = some none ∧
      (StopWithSigInt probe none
        (List.replicate 9 .caller ++ List.replicate 5 (.background true))).gpc = .select :=
  ⟨by decide, goroutine_outlives_call probe _ none (by decide) (by decide)
    (by decide)⟩

/-- After `signal.Stop`, or before `signal.Notify`, a dispatched SIGINT does
not reach this call. -/

theorem interruptStep_unsubscribed {σ ε : Type} (s : State σ ε) (h : s.subscribed = false) :
    interruptStep s = s := by
  simp [interruptStep, h]

/-- C4, what the code does: a status line can be written after the return.
With an interrupt left in the buffer of `c` at return, the goroutine receives
it and writes "Cancellation requested" after the call's `ret` action; with a
parent cancelled after the return, it writes "context error: context
canceled" after it. -/

theorem status_line_after_return :
    (StopWithSigInt probe none
        [.caller, .caller, .caller, .caller, .caller, .caller, .caller, .interrupt, .caller,
          .caller, .background true, .background true]).log =
        [.subscribe, .spawn, .fCall false, .fDone none, .stop, .cancel .caller, .ret none,
          .recv, .write .background "Cancellation requested\n"] ∧
      (StopWithSigInt probe none
        [.caller, .caller, .caller, .caller, .caller, .caller, .caller, .caller, .caller,
          .parentCancel "context canceled", .background true, .background true]).log =
        [.subscribe, .spawn, .fCall false, .fDone none, .stop, .cancel .caller, .ret none,
          .write .background "context error: context canceled\n"] := by
  constructor <;> decide

/-- C6 as stated fails: an interrupt is dispatched while `c` is registered and
before `f` is called, the goroutine is not scheduled before the caller, and `f`
is called with a live context, finds it live at its first check and returns
`nil`, while the signal is still in the buffer of `c`. -/

theorem interrupt_before_f_unseen :
    (StopWithSigInt probe none
        [.caller, .caller, .caller, .caller, .caller]).subscribed = true ∧
      (StopWithSigInt probe none
        [.caller, .caller, .caller, .caller, .caller]).log = [.subscribe, .spawn] ∧
      (StopWithSigInt probe none
        [.caller, .caller, .caller, .caller, .caller, .interrupt, .caller, .caller]).log =
        [.subscribe, .spawn, .fCall false, .fDone none] ∧
      (StopWithSigInt probe none
        [.caller, .caller, .caller, .caller, .caller, .interrupt, .caller, .caller]).buf = 1 := by
  decide

theorem pending_step {σ ε : Type} {p0 : Option String} (f : Operation σ ε)
    {s : State σ ε} (hi : Inv p0 s) (h : Pending s) (e : Event) : Pending (step f s e) := by
  obtain ⟨-, -, -, h4, h5, -, -, -, -⟩ := hi
  obtain ⟨pc, gpc, parentErr, derived, thisErr, subscribed, buf, log⟩ := s
  obtain ⟨hp1, hp2, hp3⟩ := h
  cases e with
  | caller =>
    cases pc with
    | inF st =>
      cases hf : f.step st thisErr.isSome <;> simp_all [Pending, step, callerStep]
    | deferCancel r => cases thisErr <;> simp_all [Pending, step, callerStep, cancelThis]
    | _ => simp_all [Pending, step, callerStep, Pc.beforeGo]
  | background p =>
    cases gpc with
    | select =>
      simp only [step, backgroundStep]
      split_ifs <;> simp_all [Pending]
    | cancelReq => cases thisErr <;> simp_all [Pending, step, backgroundStep, cancelThis]
    | printErr => cases parentErr <;> simp_all [Pending, step, backgroundStep]
    | _ => simp_all [Pending, step, backgroundStep]
  | interrupt =>
    simp only [step, interruptStep]
    split_ifs with c
    · refine ⟨hp1, hp2, fun hg => ?_⟩
      have := hp3 hg
      simp only [chanCap] at c
      simp only at this
      omega
    · exact ⟨hp1, hp2, hp3⟩
  | parentCancel e => cases parentErr <;> exact ⟨hp1, hp2, hp3⟩
  | propagate =>
    cases parentErr with
    | none => exact ⟨hp1, hp2, hp3⟩
    | some e0 =>
      simp only [step, propagateStep]
      split_ifs <;> exact ⟨hp1, hp2, hp3⟩
  | enter => exact ⟨hp1, hp2, hp3⟩

theorem pending_runFrom {σ ε : Type} {p0 : Option String} (f : Operation σ ε)
    (sched : List Event) :
    ∀ s : State σ ε, Inv p0 s → Pending s → Pending (runFrom f s sched) := by
  induction sched with
  | nil => intro s _ h; exact h
  | cons e l ih =>
    intro s hi h
    exact ih _ (inv_step f hi e) (pending_step f hi h e)

theorem pending_interruptStep {σ ε : Type} {p0 : Option String} {s : State σ ε}
    (hi : Inv p0 s) (hs : s.subscribed = true) : Pending (interruptStep s) := by
  obtain ⟨-, -, h3, h4, -, -, -, -, -⟩ := hi
  have hpc : s.pc ≠ .withCancel ∧ s.pc ≠ .makeChan := by
    rw [h3] at hs
    cases hp : s.pc <;> simp_all [Pc.betweenNotifyAndStop]
  simp only [HelmRepro.interruptStep]
  split_ifs with c
  · refine ⟨hpc.1, hpc.2, fun _ => ?_⟩
    have hc := c.2
    simp only [chanCap] at hc
    show s.buf + 1 = 1
    omega
  · refine ⟨hpc.1, hpc.2, fun _ => ?_⟩
    have hc : ¬ s.buf < chanCap := fun hlt => c ⟨hs, hlt⟩
    simp only [chanCap] at hc h4
    omega

/-- With a signal pending, each step of the started goroutine brings its end
one statement nearer, and no other event moves it. -/

theorem toGo_step {σ ε : Type} {p0 : Option String} (f : Operation σ ε) {s : State σ ε}
    (hi : Inv p0 s) (h : Pending s) (hg : s.gpc ≠ .notStarted) (e : Event) :
    (step f s e).gpc ≠ .notStarted ∧
      (step f s e).gpc.toGo ≤ s.gpc.toGo - backgroundSteps [e] := by
  obtain ⟨-, -, -, -, h5, -, h7, -, -⟩ := hi
  obtain ⟨pc, gpc, parentErr, derived, thisErr, subscribed, buf, log⟩ := s
  obtain ⟨hp1, hp2, hp3⟩ := h
  cases e with
  | caller =>
    cases pc with
    | inF st =>
      cases hf : f.step st thisErr.isSome <;>
        simp_all [step, callerStep, backgroundSteps]
    | deferCancel r =>
      cases thisErr <;> simp_all [step, callerStep, cancelThis, backgroundSteps]
    | _ => simp_all [step, callerStep, Pc.beforeGo, backgroundSteps]
  | background p =>
    cases gpc with
    | select =>
      simp only [step, backgroundStep]
      split_ifs <;> simp_all [GoPc.toGo, backgroundSteps]
    | cancelReq =>
      cases thisErr <;> simp_all [step, backgroundStep, cancelThis, GoPc.toGo, backgroundSteps]
    | printErr =>
      cases parentErr <;> simp_all [step, backgroundStep, GoPc.toGo, backgroundSteps]
    | _ => simp_all [step, backgroundStep, GoPc.toGo, backgroundSteps]
  | interrupt =>
    simp only [step, HelmRepro.interruptStep]
    split_ifs <;> simp_all [backgroundSteps]
  | parentCancel e => cases parentErr <;> simp_all [step, parentCancelStep, backgroundSteps]
  | propagate =>
    cases parentErr with
    | none => simp_all [step, propagateStep, backgroundSteps]
    | some e0 =>
      simp only [step, propagateStep]
      split_ifs <;> simp_all [backgroundSteps]
  | enter => simp_all [step, backgroundSteps]

theorem backgroundSteps_cons (e : Event) (l : List Event) :
    backgroundSteps (e :: l) = backgroundSteps [e] + backgroundSteps l := by
  simp only [backgroundSteps, List.countP_cons, List.countP_nil]
  omega

theorem toGo_background_runFrom {σ ε : Type} {p0 : Option String} (f : Operation σ ε)
    (sched : List Event) :
    ∀ s : State σ ε, Inv p0 s → Pending s → s.gpc ≠ .notStarted →
      (runFrom f s sched).gpc.toGo ≤ s.gpc.toGo - backgroundSteps sched := by
  induction sched with
  | nil => intro s _ _ _; simp [runFrom, backgroundSteps]
  | cons e l ih =>
    intro s hi h hg
    obtain ⟨h1, h2⟩ := toGo_step f hi h hg e
    have := ih _ (inv_step f hi e) (pending_step f hi h e) h1
    rw [runFrom_cons, backgroundSteps_cons]
    omega

/-- C6 as amended: an interrupt dispatched while `c` is registered is not
lost, and `f` sees `thisCtx` cancelled at every check it makes after the
goroutine has finished its interrupt branch.  After such an interrupt and any
further schedule: while the goroutine is not started or still in its
`select`, the signal is in the buffer of `c`; when the goroutine has finished,
either `thisCtx.Err()` is non-nil, which is what `f` is shown, or the parent was
cancelled too and the goroutine took the parent branch; once the goroutine is
started, any further schedule with three steps of the goroutine ends with it
finished, in one of these two ways; and in the second, `thisCtx` is cancelled
after any schedule in which the parent's cancellation is propagated. -/

theorem interrupt_reaches_f {σ ε : Type} (f : Operation σ ε) (ctx : Option String)
    (pre mid : List Event) (hsub : (StopWithSigInt f ctx pre).subscribed = true) :
    ((StopWithSigInt f ctx (pre ++ .interrupt :: mid)).gpc = .notStarted ∨
        (StopWithSigInt f ctx (pre ++ .interrupt :: mid)).gpc = .select →
        (StopWithSigInt f ctx (pre ++ .interrupt :: mid)).buf = 1) ∧
      ((StopWithSigInt f ctx (pre ++ .interrupt :: mid)).gpc = .finished →
        (StopWithSigInt f ctx (pre ++ .interrupt :: mid)).thisErr.isSome = true ∨
        ∃ e, (StopWithSigInt f ctx (pre ++ .interrupt :: mid)).parentErr = some e ∧
          backgroundActs (StopWithSigInt f ctx (pre ++ .interrupt :: mid)).log =
            doneBranch e) ∧
      ((StopWithSigInt f ctx (pre ++ .interrupt :: mid)).gpc ≠ .notStarted →
        ∀ more, 3 ≤ backgroundSteps more →
          (StopWithSigInt f ctx (pre ++ .interrupt :: mid ++ more)).gpc = .finished ∧
          ((StopWithSigInt f ctx (pre ++ .interrupt :: mid ++ more)).thisErr.isSome = true ∨
            ∃ e, (StopWithSigInt f ctx (pre ++ .interrupt :: mid ++ more)).parentErr = some e ∧
              backgroundActs (StopWithSigInt f ctx (pre ++ .interrupt :: mid ++ more)).log =
                doneBranch e)) ∧
      ((StopWithSigInt f ctx (pre ++ .interrupt :: mid)).parentErr ≠ none →
        ∀ more, Event.propagate ∈ more →
          (StopWithSigInt f ctx (pre ++ .interrupt :: mid ++ more)).thisErr.isSome = true) := by
  have hi0 := inv_StopWithSigInt f ctx pre
  have hp0 : Pending (interruptStep (StopWithSigInt f ctx pre)) := pending_interruptStep hi0 hsub
  have hi := inv_StopWithSigInt f ctx (pre ++ .interrupt :: mid)
  have hp : Pending (StopWithSigInt f ctx (pre ++ .interrupt :: mid)) := by
    rw [StopWithSigInt_append, runFrom_cons]
    exact pending_runFrom f mid _ (inv_step f hi0 .interrupt) hp0
  have hfin : ∀ sched, (StopWithSigInt f ctx sched).gpc = .finished →
      (StopWithSigInt f ctx sched).thisErr.isSome = true ∨
        ∃ e, (StopWithSigInt f ctx sched).parentErr = some e ∧
          backgroundActs (StopWithSigInt f ctx sched).log = doneBranch e := by
    intro sched hg
    have hb := (inv_StopWithSigInt f ctx sched).background
    rw [hg] at hb
    rcases hb with ⟨-, ht⟩ | h
    · exact Or.inl (Option.isSome_iff_ne_none.mpr ht)
    · exact Or.inr h
  refine ⟨hp.2.2, hfin _, fun hg more hm => ?_, fun hpe more hm => ?_⟩
  · have hi' := inv_StopWithSigInt f ctx (pre ++ .interrupt :: mid ++ more)
    have hle := toGo_background_runFrom f more _ hi hp hg
    have h3 : (StopWithSigInt f ctx (pre ++ .interrupt :: mid)).gpc.toGo ≤ 3 := by
      cases (StopWithSigInt f ctx (pre ++ .interrupt :: mid)).gpc <;> simp [GoPc.toGo]
    have hfin' : (StopWithSigInt f ctx (pre ++ .interrupt :: mid ++ more)).gpc = .finished := by
      have hb := hi'.background
      have h0 : (StopWithSigInt f ctx (pre ++ .interrupt :: mid ++ more)).gpc.toGo = 0 := by
        rw [show pre ++ Event.interrupt :: mid ++ more = (pre ++ .interrupt :: mid) ++ more by simp,
          StopWithSigInt_append]
        omega
      cases hg' : (StopWithSigInt f ctx (pre ++ .interrupt :: mid ++ more)).gpc <;>
        rw [hg'] at h0 hb <;> simp_all [GoPc.toGo, GoPc.trace]
    exact ⟨hfin', hfin _ hfin'⟩
  · have hd : (StopWithSigInt f ctx (pre ++ .interrupt :: mid)).derived = true :=
      hi.derived.mpr hp.1
    rw [show pre ++ Event.interrupt :: mid ++ more = (pre ++ .interrupt :: mid) ++ more by simp,
      StopWithSigInt_append]
    exact Option.isSome_iff_ne_none.mpr (propagate_runFrom f more _ hi hd hpe hm)

theorem interrupt_reaches_f_witness :
    (StopWithSigInt probe none [.caller, .caller, .caller, .caller, .caller]).subscribed = true ∧
      (StopWithSigInt probe none
        ([.caller, .caller, .caller, .caller, .caller] ++
          .interrupt :: [.background true, .background true, .background true])).gpc
        = .finished ∧
      (StopWithSigInt probe none
        ([.caller, .caller, .caller, .caller, .caller] ++
          .interrupt :: [.background true, .background true, .background true] ++
          [.caller, .caller, .caller, .caller])).result = some (some "stopped") ∧
      (StopWithSigInt probe none
          ([.caller, .caller, .caller, .caller, .caller] ++
            .interrupt :: [] ++ [.background true, .background true, .background true])).gpc
          = .finished ∧
      (StopWithSigInt probe none
          ([.caller, .caller, .caller, .caller, .caller] ++
            .interrupt :: [.background true, .background true, .background true])).thisErr.isSome
          = true :=
  ⟨by decide, by decide, by decide,
    ((interrupt_reaches_f probe none [.caller, .caller, .caller, .caller, .caller]
      [] (by decide)).2.2.1 (by decide)
      [.background true, .background true, .background true] (by decide)).1,
    by decide⟩

theorem mainFrom_cons {σ ε : Type} (Error : ε → String) (f : Operation σ ε) (nspace : String)
    (s : MainState σ ε) (e : Event) (sched : List Event) :
    mainFrom Error f nspace s (e :: sched) =
      mainFrom Error f nspace (mainStep Error f nspace s e) sched := rfl

theorem mainFrom_append {σ ε : Type} (Error : ε → String) (f : Operation σ ε) (nspace : String)
    (s : MainState σ ε) (a b : List Event) :
    mainFrom Error f nspace s (a ++ b) =
      mainFrom Error f nspace (mainFrom Error f nspace s a) b := by
  simp [mainFrom, List.foldl_append]

theorem written_callerStep {σ ε : Type} (f : Operation σ ε) (s : State σ ε) (t : Tid) :
    written t (callerStep f s).log = written t s.log := by
  obtain ⟨pc, gpc, parentErr, derived, thisErr, subscribed, buf, log⟩ := s
  cases pc with
  | inF st =>
    cases hf : f.step st thisErr.isSome <;> simp [callerStep, hf, written_append, written]
  | deferCancel r => cases thisErr <;> simp [callerStep, cancelThis, written_append, written]
  | _ => simp [callerStep, written_append, written]

theorem written_caller_backgroundStep {σ ε : Type} (p : Bool) (s : State σ ε) :
    written .caller (backgroundStep p s).log = written .caller s.log := by
  obtain ⟨pc, gpc, parentErr, derived, thisErr, subscribed, buf, log⟩ := s
  cases gpc with
  | select =>
    simp only [backgroundStep]
    split_ifs <;> simp [written_append, written]
  | cancelReq => cases thisErr <;> simp [backgroundStep, cancelThis, written_append, written]
  | printErr => cases parentErr <;> simp [backgroundStep, written_append, written]
  | _ => simp [backgroundStep, written_append, written]

theorem pc_backgroundStep {σ ε : Type} (f : Operation σ ε) (p : Bool) (s : State σ ε) :
    (backgroundStep p s).pc = s.pc :=
  pc_step_of_ne_caller f s (.background p) (by simp)

theorem pc_interruptStep {σ ε : Type} (s : State σ ε) : (interruptStep s).pc = s.pc := by
  simp only [interruptStep]
  split_ifs <;> rfl

theorem mainCallerStep_install {σ ε : Type} (Error : ε → String) (f : Operation σ ε)
    (nspace : String) (s : MainState σ ε) (h : s.mpc = .install)
    (hr : ∀ r, s.run.pc ≠ .returned r) :
    mainCallerStep Error f nspace s = { s with run := callerStep f s.run } := by
  obtain ⟨mpc, lines, run⟩ := s
  simp only at h hr
  subst h
  cases hpc : run.pc <;> simp_all [mainCallerStep, waitForInputWrite, waitForInputRead]

theorem mainCallerStep_returned {σ ε : Type} (Error : ε → String) (f : Operation σ ε)
    (nspace : String) (s : MainState σ ε) (h : s.mpc = .install) (r : Option ε)
    (hr : s.run.pc = .returned r) :
    mainCallerStep Error f nspace s =
      { s with mpc := .prompt2,
               run := { s.run with
                 log := s.run.log ++ (report Error r).map (Act.write .caller) } } := by
  obtain ⟨mpc, lines, run⟩ := s
  obtain ⟨pc, gpc, parentErr, derived, thisErr, subscribed, buf, log⟩ := run
  simp only at h hr
  subst h hr
  cases r <;> simp [mainCallerStep, waitForInputWrite, waitForInputRead, report]

theorem written_map_write {ε : Type} (t : Tid) (l : List String) :
    written t (l.map (Act.write t : String → Act ε)) = l := by
  induction l with
  | nil => rfl
  | cons a l ih => simp_all [written]

theorem fReturns_map_write {ε : Type} (t : Tid) (l : List String) :
    fReturns (l.map (Act.write t : String → Act ε)) = [] := by
  induction l with
  | nil => rfl
  | cons a l ih => simp_all [fReturns]

theorem mainInv_step {σ ε : Type} (Error : ε → String) (f : Operation σ ε)
    (nspace : String) {s : MainState σ ε} (h : MainInv Error nspace s) (e : Event) :
    MainInv Error nspace (mainStep Error f nspace s e) := by
  obtain ⟨mpc, lines, run⟩ := s
  cases mpc with
  | exited => exact h
  | panicked => exact h
  | killed => exact h
  | check =>
    simp only [MainInv] at h
    subst h
    cases e with
    | caller =>
      by_cases hn : nspace = "" <;>
        simp [mainStep, MainPc.alive, mainCallerStep, waitForInputWrite, waitForInputRead,
          hn, MainInv]
    | background p => simp [mainStep, MainPc.alive, MainInv, backgroundStep, State.entry]
    | interrupt => simp [mainStep, MainPc.alive, MainInv, State.entry]
    | parentCancel err => simp [mainStep, MainPc.alive, MainInv]
    | propagate => simp [mainStep, MainPc.alive, MainInv]
    | enter => simp [mainStep, MainPc.alive, MainInv]
  | prompt1 =>
    simp only [MainInv] at h
    obtain ⟨hn, h⟩ := h
    subst h
    cases e with
    | caller => simp [mainStep, MainPc.alive, mainCallerStep, waitForInputWrite, waitForInputRead,
      hn, MainInv, State.entry]
    | background p => simp [mainStep, MainPc.alive, MainInv, backgroundStep, State.entry, hn]
    | interrupt => simp [mainStep, MainPc.alive, MainInv, State.entry, hn]
    | parentCancel err => simp [mainStep, MainPc.alive, MainInv, hn]
    | propagate => simp [mainStep, MainPc.alive, MainInv, hn]
    | enter => simp [mainStep, MainPc.alive, MainInv, hn]
  | read1 =>
    simp only [MainInv] at h
    obtain ⟨hn, h⟩ := h
    subst h
    cases e with
    | caller =>
      by_cases hl : 0 < lines <;>
        simp [mainStep, MainPc.alive, mainCallerStep, waitForInputWrite, waitForInputRead,
          hn, hl, MainInv, State.entry, written,
          fReturns, Pc.fResult]
    | background p => simp [mainStep, MainPc.alive, MainInv, backgroundStep, State.entry, hn]
    | interrupt => simp [mainStep, MainPc.alive, MainInv, State.entry, hn]
    | parentCancel err => simp [mainStep, MainPc.alive, MainInv, hn]
    | propagate => simp [mainStep, MainPc.alive, MainInv, hn]
    | enter => simp [mainStep, MainPc.alive, MainInv, hn]
  | install =>
    simp only [MainInv] at h
    obtain ⟨hn, hw, hf⟩ := h
    cases e with
    | caller =>
      by_cases hr : ∃ r, run.pc = .returned r
      · obtain ⟨r, hr⟩ := hr
        simp only [mainStep, MainPc.alive, if_true]
        rw [mainCallerStep_returned Error f nspace _ rfl r hr]
        simp only [MainInv]
        refine ⟨hn, r, hr, ?_, ?_⟩
        · rw [fReturns_append, fReturns_map_write, hf, hr]; rfl
        · rw [written_append, written_map_write, hw]
      · simp only [mainStep, MainPc.alive, if_true]
        rw [mainCallerStep_install Error f nspace _ rfl (fun r h => hr ⟨r, h⟩)]
        simp only [MainInv]
        exact ⟨hn, by rw [written_callerStep, hw], fReturns_step f run .caller hf⟩
    | background p =>
      simp only [mainStep, MainPc.alive, if_true, MainInv]
      exact ⟨hn, by rw [written_caller_backgroundStep, hw],
        fReturns_step f run (.background p) hf⟩
    | interrupt =>
      simp only [mainStep, MainPc.alive, if_true]
      split_ifs with c
      · simp only [MainInv]
        exact ⟨hn, by rw [log_interruptStep, hw], fReturns_step f run .interrupt hf⟩
      · simp only [MainInv]
        intro h0
        exact absurd h0 hn
    | parentCancel err => simpa [mainStep, MainPc.alive, MainInv] using ⟨hn, hw, hf⟩
    | propagate => simpa [mainStep, MainPc.alive, MainInv] using ⟨hn, hw, hf⟩
    | enter => simpa [mainStep, MainPc.alive, MainInv] using ⟨hn, hw, hf⟩
  | prompt2 =>
    simp only [MainInv] at h
    obtain ⟨hn, r, hr, hf, hw⟩ := h
    cases e with
    | caller =>
      simp only [mainStep, MainPc.alive, if_true, mainCallerStep, waitForInputWrite, waitForInputRead,
        MainInv]
      exact ⟨hn, r, hr, by rw [fReturns_append, hf]; rfl,
        by rw [written_append, hw]; rfl⟩
    | background p =>
      simp only [mainStep, MainPc.alive, if_true, MainInv]
      refine ⟨hn, r, by rw [pc_backgroundStep f, hr], ?_,
        by rw [written_caller_backgroundStep, hw]⟩
      have := fReturns_step f run (.background p) (by rw [hf, hr]; rfl)
      simp only [step] at this
      rw [this, pc_backgroundStep f, hr]; rfl
    | interrupt =>
      simp only [mainStep, MainPc.alive, if_true]
      split_ifs with c
      · simp only [MainInv]
        exact ⟨hn, r, by rw [pc_interruptStep, hr], by rw [log_interruptStep, hf],
          by rw [log_interruptStep, hw]⟩
      · simp only [MainInv]
        intro h0
        exact absurd h0 hn
    | parentCancel err => simpa [mainStep, MainPc.alive, MainInv] using ⟨hn, r, hr, hf, hw⟩
    | propagate => simpa [mainStep, MainPc.alive, MainInv] using ⟨hn, r, hr, hf, hw⟩
    | enter => simpa [mainStep, MainPc.alive, MainInv] using ⟨hn, r, hr, hf, hw⟩
  | read2 =>
    simp only [MainInv] at h
    obtain ⟨hn, r, hr, hf, hw⟩ := h
    cases e with
    | caller =>
      by_cases hl : 0 < lines
      · simp only [mainStep, MainPc.alive, if_true, mainCallerStep, waitForInputWrite, waitForInputRead,
        hl, MainInv]
        exact ⟨hn, r, hr, hf, hw⟩
      · simp only [mainStep, MainPc.alive, if_true, mainCallerStep, waitForInputWrite, waitForInputRead,
        hl, if_false, MainInv]
        exact ⟨hn, r, hr, hf, hw⟩
    | background p =>
      simp only [mainStep, MainPc.alive, if_true, MainInv]
      refine ⟨hn, r, by rw [pc_backgroundStep f, hr], ?_,
        by rw [written_caller_backgroundStep, hw]⟩
      have := fReturns_step f run (.background p) (by rw [hf, hr]; rfl)
      simp only [step] at this
      rw [this, pc_backgroundStep f, hr]; rfl
    | interrupt =>
      simp only [mainStep, MainPc.alive, if_true]
      split_ifs with c
      · simp only [MainInv]
        exact ⟨hn, r, by rw [pc_interruptStep, hr], by rw [log_interruptStep, hf],
          by rw [log_interruptStep, hw]⟩
      · simp only [MainInv]
        intro h0
        exact absurd h0 hn
    | parentCancel err => simpa [mainStep, MainPc.alive, MainInv] using ⟨hn, r, hr, hf, hw⟩
    | propagate => simpa [mainStep, MainPc.alive, MainInv] using ⟨hn, r, hr, hf, hw⟩
    | enter => simpa [mainStep, MainPc.alive, MainInv] using ⟨hn, r, hr, hf, hw⟩

theorem mainInv_mainFrom {σ ε : Type} (Error : ε → String) (f : Operation σ ε)
    (nspace : String) (sched : List Event) :
    ∀ s : MainState σ ε, MainInv Error nspace s →
      MainInv Error nspace (mainFrom Error f nspace s sched) := by
  induction sched with
  | nil => intro s h; exact h
  | cons e l ih => intro s h; exact ih _ (mainInv_step Error f nspace h e)

theorem mainInv_main {σ ε : Type} (Error : ε → String) (helm : Helm σ ε)
    (driver nspace : String) (sched : List Event) :
    MainInv Error nspace (main Error helm driver nspace sched) :=
  mainInv_mainFrom Error _ nspace sched MainState.entry rfl

theorem mainStep_of_not_alive {σ ε : Type} (Error : ε → String) (f : Operation σ ε)
    (nspace : String) (s : MainState σ ε) (h : s.mpc.alive = false) (e : Event) :
    mainStep Error f nspace s e = s := by
  simp [mainStep, h]

theorem mainFrom_of_not_alive {σ ε : Type} (Error : ε → String) (f : Operation σ ε)
    (nspace : String) (sched : List Event) :
    ∀ s : MainState σ ε, s.mpc.alive = false → mainFrom Error f nspace s sched = s := by
  induction sched with
  | nil => intro s _; rfl
  | cons e l ih =>
    intro s h
    rw [mainFrom_cons, mainStep_of_not_alive Error f nspace s h, ih s h]

/-- Without an interrupt the process is not killed, and each step of `main`'s
thread brings the first prompt one statement nearer. -/

theorem toPrompt_step {σ ε : Type} (Error : ε → String) (f : Operation σ ε)
    (nspace : String) (s : MainState σ ε) (e : Event) (he : e ≠ .interrupt)
    (hk : s.mpc ≠ .killed) :
    (mainStep Error f nspace s e).mpc ≠ .killed ∧
      (nspace = "" → s.mpc = .check ∨ s.mpc = .panicked →
        ((mainStep Error f nspace s e).mpc = .check ∨
          (mainStep Error f nspace s e).mpc = .panicked) ∧
        (e = .caller → (mainStep Error f nspace s e).mpc = .panicked)) ∧
      (nspace ≠ "" →
        (mainStep Error f nspace s e).mpc.toPrompt ≤ s.mpc.toPrompt - callerSteps [e]) := by
  obtain ⟨mpc, lines, run⟩ := s
  cases e with
  | interrupt => exact absurd rfl he
  | caller =>
    cases mpc with
    | check =>
      by_cases hn : nspace = "" <;>
        simp [mainStep, MainPc.alive, mainCallerStep, waitForInputWrite, waitForInputRead,
          hn, MainPc.toPrompt, callerSteps]
    | read1 =>
      by_cases hl : 0 < lines <;>
        simp [mainStep, MainPc.alive, mainCallerStep, waitForInputWrite, waitForInputRead,
          hl, MainPc.toPrompt]
    | read2 =>
      by_cases hl : 0 < lines <;>
        simp [mainStep, MainPc.alive, mainCallerStep, waitForInputWrite, waitForInputRead,
          hl, MainPc.toPrompt]
    | install =>
      by_cases hr : ∃ r, run.pc = .returned r
      · obtain ⟨r, hr⟩ := hr
        simp only [mainStep, MainPc.alive, if_true]
        rw [mainCallerStep_returned Error f nspace _ rfl r hr]
        simp [MainPc.toPrompt]
      · simp only [mainStep, MainPc.alive, if_true]
        rw [mainCallerStep_install Error f nspace _ rfl (fun r h => hr ⟨r, h⟩)]
        simp [MainPc.toPrompt]
    | killed => exact absurd rfl hk
    | _ => simp [mainStep, MainPc.alive, mainCallerStep, waitForInputWrite, waitForInputRead,
      MainPc.toPrompt, callerSteps]
  | background p =>
    cases mpc <;> simp_all [mainStep, MainPc.alive, MainPc.toPrompt, callerSteps]
  | parentCancel err =>
    cases mpc <;> simp_all [mainStep, MainPc.alive, MainPc.toPrompt, callerSteps]
  | propagate =>
    cases mpc <;> simp_all [mainStep, MainPc.alive, MainPc.toPrompt, callerSteps]
  | enter =>
    cases mpc <;> simp_all [mainStep, MainPc.alive, MainPc.toPrompt, callerSteps]

theorem callerSteps_cons (e : Event) (l : List Event) :
    callerSteps (e :: l) = callerSteps [e] + callerSteps l := by
  by_cases h : e = .caller
  · subst h; simp [callerSteps]; omega
  · have h' : ¬ (e == Event.caller) = true := by simpa using h
    simp [callerSteps, List.count_cons, h']

theorem toPrompt_mainFrom {σ ε : Type} (Error : ε → String) (f : Operation σ ε)
    (nspace : String) (hn : nspace ≠ "") (sched : List Event) :
    ∀ s : MainState σ ε, noInterrupt sched → s.mpc ≠ .killed →
      (mainFrom Error f nspace s sched).mpc ≠ .killed ∧
        (mainFrom Error f nspace s sched).mpc.toPrompt ≤ s.mpc.toPrompt - callerSteps sched := by
  induction sched with
  | nil => intro s _ hk; exact ⟨hk, by simp [mainFrom, callerSteps]⟩
  | cons e l ih =>
    intro s hi hk
    have he : e ≠ .interrupt := fun h => hi (by simp [h])
    obtain ⟨h1, -, h3⟩ := toPrompt_step Error f nspace s e he hk
    obtain ⟨h4, h5⟩ := ih _ (fun hm => hi (List.mem_cons_of_mem _ hm)) h1
    have := h3 hn
    rw [mainFrom_cons, callerSteps_cons]
    exact ⟨h4, by omega⟩

theorem panics_mainFrom {σ ε : Type} (Error : ε → String) (f : Operation σ ε)
    (sched : List Event) :
    ∀ s : MainState σ ε, noInterrupt sched → s.mpc = .check ∨ s.mpc = .panicked →
      (mainFrom Error f "" s sched).mpc = .check ∨
        (mainFrom Error f "" s sched).mpc = .panicked := by
  induction sched with
  | nil => intro s _ h; exact h
  | cons e l ih =>
    intro s hi h
    have he : e ≠ .interrupt := fun h => hi (by simp [h])
    have hk : s.mpc ≠ .killed := by rcases h with h | h <;> simp [h]
    obtain ⟨-, h2, -⟩ := toPrompt_step Error f "" s e he hk
    exact ih _ (fun hm => hi (List.mem_cons_of_mem _ hm)) (h2 rfl h).1

/-- C7: the namespace check of lines 22-24.  With an empty namespace the
process is, under every schedule, before the check, panicked or killed by an
interrupt, and the call of `StopWithSigInt` is untouched: nothing is written,
no channel is registered, the goroutine is not started and `installChart` is
not called; and the first step of `main`'s thread, if no interrupt comes
before it, is the panic.  With a non-empty namespace the process never
panics, and after two steps of `main`'s thread without an interrupt the first
thing written is the first prompt. -/

theorem main_namespace_check {σ ε : Type} (Error : ε → String) (helm : Helm σ ε)
    (driver nspace : String) (sched : List Event) :
    (nspace = "" →
        ((main Error helm driver nspace sched).mpc = .check ∨
          (main Error helm driver nspace sched).mpc = .panicked ∨
          (main Error helm driver nspace sched).mpc = .killed) ∧
        (main Error helm driver nspace sched).run = State.entry none ∧
        ∀ pre post, noInterrupt pre →
          (main Error helm driver nspace (pre ++ .caller :: post)).mpc = .panicked) ∧
      (nspace ≠ "" →
        (main Error helm driver nspace sched).mpc ≠ .panicked ∧
        ∀ pre, noInterrupt pre → 2 ≤ callerSteps pre →
          (written .caller (main Error helm driver nspace pre).run.log).head? =
            some (startPrompt ++ "\n")) := by
  constructor
  · intro hn
    subst hn
    have hi := mainInv_main Error helm driver "" sched
    refine ⟨?_, ?_, ?_⟩
    · cases hm : (main Error helm driver "" sched).mpc <;> simp_all [MainInv]
    · cases hm : (main Error helm driver "" sched).mpc <;> simp_all [MainInv]
    · intro pre post hpre
      have h1 := panics_mainFrom Error (installChart helm driver "") pre MainState.entry hpre
        (Or.inl rfl)
      have hk : (main Error helm driver "" pre).mpc ≠ .killed := by
        rcases h1 with h | h <;> simp [main, h]
      obtain ⟨-, h2, -⟩ := toPrompt_step Error (installChart helm driver "") ""
        (main Error helm driver "" pre) .caller (by simp) hk
      have h3 := (h2 rfl h1).2 rfl
      simp only [main, mainFrom_append, mainFrom_cons]
      rw [mainFrom_of_not_alive]
      · exact h3
      · simp only [main] at h3
        rw [h3]; rfl
  · intro hn
    refine ⟨?_, ?_⟩
    · have hi := mainInv_main Error helm driver nspace sched
      intro hp
      rw [MainInv, hp] at hi
      exact hn hi.1
    · intro pre hpre h2
      have hi := mainInv_main Error helm driver nspace pre
      obtain ⟨hk, hle⟩ := toPrompt_mainFrom Error (installChart helm driver nspace) nspace hn
        pre MainState.entry hpre (by simp [MainState.entry])
      have h0 : (main Error helm driver nspace pre).mpc.toPrompt = 0 := by
        have : (MainState.entry : MainState (InstallPc σ) ε).mpc.toPrompt = 2 := rfl
        simp only [main]
        omega
      cases hm : (main Error helm driver nspace pre).mpc <;>
        simp_all [MainInv, MainPc.toPrompt, main]
      · rfl
      all_goals
        obtain ⟨r, -, -, hw⟩ := hi
        rw [hw]
        rfl

/-- C8: what `main` does with the result of the install phase, for a non-empty
namespace.  The process never panics.  Once the second prompt is written
(`main` waits for the last line, or has ended normally), `StopWithSigInt` has
returned some `r`, which is what `installChart` returned, and `main`'s thread
has written: the first prompt, then, when `r` is an error `e`, the one line
"error during installation: " with the text of `e`, then "Press enter to
exit"; when `r` is `nil`, the two prompts only.  Whenever the install phase
has returned, two steps of `main`'s thread, a line on standard input and one
more step end the process normally.  And `installChart` returns the error of
`loader.Load`, of `actionConfig.Init` or of `client.RunWithContext` as it
is. -/

theorem main_reports_install_error {σ ε : Type} (Error : ε → String) (helm : Helm σ ε)
    (driver nspace : String) (sched : List Event) (hn : nspace ≠ "") :
    (main Error helm driver nspace sched).mpc ≠ .panicked ∧
      ((main Error helm driver nspace sched).mpc = .read2 ∨
          (main Error helm driver nspace sched).mpc = .exited →
        ∃ r, (main Error helm driver nspace sched).run.result = some r ∧
          fReturns (main Error helm driver nspace sched).run.log = [r] ∧
          written .caller (main Error helm driver nspace sched).run.log =
            finalOutput Error r) ∧
      (∀ r, (main Error helm driver nspace sched).mpc = .install →
        (main Error helm driver nspace sched).run.result = some r →
        (main Error helm driver nspace
          (sched ++ [.caller, .caller, .enter, .caller])).mpc = .exited) ∧
      (∀ e c, helm.Load "chart" = some e →
        (installChart helm driver nspace).step .load c = .done (some e)) ∧
      (∀ e c, helm.Init nspace "repro" driver = some e →
        (installChart helm driver nspace).step .init c = .done (some e)) ∧
      (∀ st c r, (helm.RunWithContext (installClient nspace)).step st c = .done r →
        (installChart helm driver nspace).step (.run st) c = .done r) := by
  have hi := mainInv_main Error helm driver nspace sched
  refine ⟨?_, ?_, ?_, fun e c h => by simp [installChart, h],
    fun e c h => by simp [installChart, h], fun st c r h => by simp [installChart, h]⟩
  · intro hp
    rw [MainInv, hp] at hi
    exact hn hi.1
  · intro hm
    have key : ∃ r, (main Error helm driver nspace sched).run.pc = .returned r ∧
        fReturns (main Error helm driver nspace sched).run.log = [r] ∧
        written .caller (main Error helm driver nspace sched).run.log =
          [startPrompt ++ "\n"] ++ report Error r ++ [exitPrompt ++ "\n"] := by
      rcases hm with hm | hm <;> rw [MainInv, hm] at hi <;> exact hi.2
    obtain ⟨r, h1, h2, h3⟩ := key
    refine ⟨r, result_eq_some.mpr h1, h2, ?_⟩
    rw [h3]
    cases r <;> rfl
  · intro r hm hr
    rw [result_eq_some] at hr
    simp only [main, mainFrom_append] at hm hr ⊢
    generalize mainFrom Error (installChart helm driver nspace) nspace MainState.entry sched
      = s at hm hr
    have h1 : mainStep Error (installChart helm driver nspace) nspace s .caller =
        { s with mpc := .prompt2,
                 run := { s.run with
                   log := s.run.log ++ (report Error r).map (Act.write .caller) } } := by
      rw [← mainCallerStep_returned Error (installChart helm driver nspace) nspace s hm r hr]
      simp [mainStep, hm, MainPc.alive]
    simp only [mainFrom_cons, h1]
    simp [mainFrom, mainStep, MainPc.alive, mainCallerStep, waitForInputWrite, waitForInputRead]

theorem main_reports_install_error_witness :
    "demo" ≠ "" ∧
      (main id brokenChart "" "demo" demoSchedule).mpc = .exited ∧
      written .caller (main id brokenChart "" "demo" demoSchedule).run.log =
        ["Press enter to start installation. Press ctrl+c to cancel installation once begun\n",
          "error during installation: Chart.yaml file is missing\n",
          "Press enter to exit\n"] ∧
      (main id brokenChart "" "demo" demoSchedule).mpc ≠ .panicked :=
  ⟨by decide, by decide, by decide,
    (main_reports_install_error id brokenChart "" "demo" demoSchedule (by decide)).1⟩

end HelmRepro
